import Mathlib

/-!
Shallow embedding of the document segmentation and resilient ingestion
pipeline of the platform-app repository (src/src/ingestion/chunker.py,
src/src/ingestion/enricher.py, src/src/ingestion/ingest_pipeline.py and
src/config/settings.py), together with theorems settling the frozen claims
about its specification.

Text is modelled as a list of characters.  The Python string primitives used
by the source (str.strip, str.split, and the fixed regular expressions of
chunker.py) are implemented as executable Lean functions.  The two external
text splitters consumed by DocumentChunker are modelled from the spec
(sections 4.2 stage 1 and stage 2), following the behaviour of the library
they name: the header splitter strips each line and drops blank lines, the
recursive splitter keeps separators attached to the following piece and
strips each emitted chunk.
-/

/-- Text is a list of characters (a Python string). -/
abbrev Str := List Char

/-- Character list of a Lean string literal. -/
def S (s : String) : Str := s.data

/-- The whitespace characters of Python str.strip and of the regex class
\s (ASCII subset, which covers every string the source manipulates). -/
def isPyWs (c : Char) : Bool :=
  c = ' ' || c = '\t' || c = '\n' || c = '\r' || c = '\x0b' || c = '\x0c'

/-- Python str.strip: drop whitespace from both ends. -/
def strip (s : Str) : Str :=
  ((s.dropWhile isPyWs).reverse.dropWhile isPyWs).reverse

/-- Python text.split with a newline separator: the (possibly empty) pieces
between newline characters; the empty string yields one empty piece. -/
def splitNL : Str → List Str
  | [] => [[]]
  | c :: cs =>
    if c = '\n' then [] :: splitNL cs
    else
      match splitNL cs with
      | [] => [[c]]
      | p :: ps => (c :: p) :: ps

/-- Rejoin lines with single newlines (inverse of splitNL). -/
def joinNL : List Str → Str
  | [] => []
  | [l] => l
  | l :: ls => l ++ '\n' :: joinNL ls

/-- Case-insensitive literal match returning the rest of the input. -/
def matchCI : Str → Str → Option Str
  | [], s => some s
  | _ :: _, [] => none
  | p :: ps, c :: cs => if c.toLower = p.toLower then matchCI ps cs else none

/-- Consume one or more whitespace characters (regex \s+, maximal munch). -/
def wsPlus : Str → Option Str
  | [] => none
  | c :: cs => if isPyWs c then some (cs.dropWhile isPyWs) else none

/-- Consume one or more newline characters (regex newline-plus). -/
def nlPlus : Str → Option Str
  | [] => none
  | c :: cs => if c = '\n' then some (cs.dropWhile (· = '\n')) else none

/-- Opening of TOC_SECTION_PATTERN (chunker.py lines 60-63) matched at the
head of the input: hash, optional whitespace, TABLE, whitespace, OF, optional
whitespace, CONTENTS, case-insensitively; returns the remaining input. -/
def tocSectionOpen : Str → Option Str
  | '#' :: r0 =>
    (matchCI (S "TABLE") (r0.dropWhile isPyWs)).bind (fun r1 =>
      (wsPlus r1).bind (fun r2 =>
        (matchCI (S "OF") r2).bind (fun r3 =>
          matchCI (S "CONTENTS") (r3.dropWhile isPyWs))))
  | _ => none

/-- Lookahead of TOC_SECTION_PATTERN: newline, hash, optional whitespace,
ARTICLE, whitespace, 1, whitespace, INTERPRETATION, newlines, 1.01. -/
def tocSectionStop : Str → Bool
  | '\n' :: '#' :: r0 =>
    ((matchCI (S "ARTICLE") (r0.dropWhile isPyWs)).bind (fun r1 =>
      (wsPlus r1).bind (fun r2 =>
        match r2 with
        | '1' :: r3 =>
          (wsPlus r3).bind (fun r4 =>
            (matchCI (S "INTERPRETATION") r4).bind (fun r5 =>
              (nlPlus r5).bind (fun r6 => matchCI (S "1.01") r6)))
        | _ => none))).isSome
  | _ => false

/-- Least offset at which the lookahead holds (where the lazy body of
TOC_SECTION_PATTERN stops). -/
def tocStopDist : Str → Option Nat
  | [] => none
  | c :: cs => if tocSectionStop (c :: cs) then some 0 else (tocStopDist cs).map (· + 1)

/-- When TOC_SECTION_PATTERN matches at the head of the input, the length of
the match (the lookahead itself is zero-width). -/
def tocSectionLen (s : Str) : Option Nat :=
  (tocSectionOpen s).bind (fun r =>
    (tocStopDist r).map (fun d => (s.length - r.length) + d))

/-- re.sub for TOC_SECTION_PATTERN: scan left to right, delete each leftmost
match and continue after its end; the skip argument counts characters of a
match still being deleted. -/
def tocSectionGo : Str → Nat → Str
  | [], _ => []
  | _ :: cs, k + 1 => tocSectionGo cs k
  | c :: cs, 0 =>
    match tocSectionLen (c :: cs) with
    | some n => tocSectionGo cs (n - 1)
    | none => c :: tocSectionGo cs 0

/-- Step 0a of DocumentChunker._clean_text: remove the table-of-contents
section. -/
def tocSectionSub (s : Str) : Str := tocSectionGo s 0

/-- Length of the leading run satisfying a predicate. -/
def takeCount (p : Char → Bool) (s : Str) : Nat := (s.takeWhile p).length

/-- Index of the last newline of a string, if any. -/
def lastNlIdx : Str → Option Nat
  | [] => none
  | c :: cs =>
    match lastNlIdx cs with
    | some i => some (i + 1)
    | none => if c = '\n' then some 0 else none

/-- Characters of the trailing whitespace run consumed by the final part of
TOC_PATTERN (whitespace-star then end-of-line): all of the run at end of
input, otherwise up to the last newline of the run; no newline means no
match. -/
def tocTrailLen (run rest : Str) : Option Nat :=
  if rest.isEmpty then some run.length else lastNlIdx run

/-- When TOC_PATTERN (chunker.py lines 53-56) matches at the head of the
input (a line start), the length of the match: hashes, whitespace, digits and
dots, whitespace, a nonempty non-newline body, newlines, one to three digits,
then trailing whitespace up to an end of line. -/
def tocEntryLen (s : Str) : Option Nat :=
  let hs := takeCount (fun c => c = '#') s
  if hs = 0 then none else
  let r1 := s.drop hs
  let w1 := takeCount isPyWs r1
  if w1 = 0 then none else
  let r2 := r1.drop w1
  let d1 := takeCount (fun c => c.isDigit || c = '.') r2
  if d1 = 0 then none else
  let r3 := r2.drop d1
  let w2 := takeCount isPyWs r3
  if w2 = 0 then none else
  let r4 := r3.drop w2
  let b := takeCount (fun c => c ≠ '\n') r4
  if b = 0 then none else
  let r5 := r4.drop b
  let nl := takeCount (fun c => c = '\n') r5
  if nl = 0 then none else
  let r6 := r5.drop nl
  let dg := takeCount (fun c => c.isDigit) r6
  if dg = 0 then none else
  if 3 < dg then none else
  let r7 := r6.drop dg
  let run := r7.takeWhile isPyWs
  (tocTrailLen run (r7.drop run.length)).map
    (fun t => hs + w1 + d1 + w2 + b + nl + dg + t)

/-- re.sub for the multiline TOC_PATTERN: matches are attempted only at line
starts; deletion then continues after the match end. -/
def tocEntryGo : Str → Nat → Bool → Str
  | [], _, _ => []
  | c :: cs, k + 1, _ => tocEntryGo cs k (c = '\n')
  | c :: cs, 0, atStart =>
    if atStart then
      match tocEntryLen (c :: cs) with
      | some n => tocEntryGo cs (n - 1) (c = '\n')
      | none => c :: tocEntryGo cs 0 (c = '\n')
    else c :: tocEntryGo cs 0 (c = '\n')

/-- Step 0b of DocumentChunker._clean_text: remove remaining
table-of-contents entries. -/
def tocEntrySub (s : Str) : Str := tocEntryGo s 0 true

/-- Mojibake character class of the date-footer pattern (chunker.py line 46),
read back from the raw bytes of the source file. -/
def dateDashClass (c : Char) : Bool :=
  c = 'â' || c = 'Â' || c = '€' || c = '“' || c = '-'

/-- BOILERPLATE_PATTERNS of DocumentChunker (chunker.py lines 43-50), tested
with re.match against the stripped line, case-insensitively. -/
def isBoilerplateLine (line : Str) : Bool :=
  let st := strip line
  decide (matchCI (S "INITIAL") st = some []) ||
  decide (((matchCI (S "Landlord") st).bind (fun r =>
    (wsPlus r).bind (fun r2 => matchCI (S "Tenant") r2))) = some []) ||
  decide (((matchCI (S "MR") st).bind (fun r =>
    match r.dropWhile isPyWs with
    | c :: r2 =>
      if dateDashClass c then
        (matchCI (S "July") (r2.dropWhile isPyWs)).bind (fun r3 =>
          (wsPlus r3).bind (fun r4 => matchCI (S "2020") r4))
      else none
    | [] => none)) = some []) ||
  (decide (1 ≤ st.length) && decide (st.length ≤ 3) && st.all (·.isDigit)) ||
  (match st with
   | '#' :: _ =>
     let r2 := (st.dropWhile (fun c => c = '#')).dropWhile isPyWs
     decide (1 ≤ r2.length) && decide (r2.length ≤ 3) && r2.all (·.isDigit)
   | _ => false) ||
  st.isEmpty

/-- Collapse runs of newlines, keeping at most two per run (the final re.sub
of _clean_text); the counter carries pending newlines. -/
def collapseGo : Str → Nat → Str
  | [], p => List.replicate (min p 2) '\n'
  | c :: cs, p =>
    if c = '\n' then collapseGo cs (p + 1)
    else List.replicate (min p 2) '\n' ++ c :: collapseGo cs 0

/-- re.sub of three or more consecutive newlines by exactly two. -/
def collapseNL (s : Str) : Str := collapseGo s 0

/-- DocumentChunker._clean_text (chunker.py lines 102-138): TOC-section
removal, TOC-entry removal, boilerplate-line filtering, newline-run
collapsing, final strip. -/
def cleanText (text : Str) : Str :=
  let t1 := tocSectionSub text
  let t2 := tocEntrySub t1
  let kept := (splitNL t2).filter (fun l => !isBoilerplateLine l)
  strip (collapseNL (joinNL kept))

/-- Metadata of a chunk: the article and section headers in force and the
sub-chunk index added by secondary splitting (the Python dict with keys
article, section, sub_chunk; a none field is an absent key). -/
structure SegMeta where
  article : Option Str
  sectionName : Option Str
  subChunk : Option Nat
deriving DecidableEq, Repr

/-- The empty metadata dict. -/
def emptyMeta : SegMeta := ⟨none, none, none⟩

/-- An article header line: one hash alone or one hash followed by a space. -/
def isHeader1 (st : Str) : Bool := decide (st = ['#']) || ['#', ' '].isPrefixOf st

/-- A section header line: two hashes alone or two hashes and a space. -/
def isHeader2 (st : Str) : Bool :=
  decide (st = ['#', '#']) || ['#', '#', ' '].isPrefixOf st

/-- Modelled from the spec: stage 1 of the chunker splits on two header
levels (article = one hash, section = two hashes), keeps the header text
inside the content and records the stripped header data in the metadata;
like the external markdown header splitter it stands for, it strips every
line and drops blank lines.  The accumulator holds the stripped lines of the
segment being built. -/
def headerSplitGo : SegMeta → List Str → List Str → List (Str × SegMeta)
  | meta, acc, [] => if acc.isEmpty then [] else [(joinNL acc, meta)]
  | meta, acc, line :: rest =>
    let st := strip line
    if st.isEmpty then headerSplitGo meta acc rest
    else if isHeader2 st then
      (if acc.isEmpty then [] else [(joinNL acc, meta)]) ++
        headerSplitGo ⟨meta.article, some (strip (st.drop 2)), none⟩ [st] rest
    else if isHeader1 st then
      (if acc.isEmpty then [] else [(joinNL acc, meta)]) ++
        headerSplitGo ⟨some (strip (st.drop 1)), none, none⟩ [st] rest
    else headerSplitGo meta (acc ++ [st]) rest

/-- Stage 1 of DocumentChunker.chunk: ordered (content, metadata) segments. -/
def headerSplit (text : Str) : List (Str × SegMeta) :=
  headerSplitGo emptyMeta [] (splitNL text)

/-- Python substring test (sep in text); the empty separator always occurs. -/
def occursIn (sep : Str) : Str → Bool
  | [] => sep.isEmpty
  | c :: cs => sep.isPrefixOf (c :: cs) || occursIn sep cs

/-- Modelled from the spec: split by one separator, keeping the separator at
the front of the following piece (as the recursive splitter does); empty
pieces are dropped.  The skip argument counts separator characters being
consumed into the current piece, whose characters are held reversed. -/
def splitKeepGo (sep : Str) : Str → Nat → Str → List Str
  | [], _, cur => if cur.isEmpty then [] else [cur.reverse]
  | c :: cs, k + 1, cur => splitKeepGo sep cs k (c :: cur)
  | c :: cs, 0, cur =>
    if sep.isPrefixOf (c :: cs) then
      (if cur.isEmpty then [] else [cur.reverse]) ++
        splitKeepGo sep cs (sep.length - 1) [c]
    else splitKeepGo sep cs 0 (c :: cur)

/-- Split a text by one separator, keeping separators. -/
def splitKeep (sep s : Str) : List Str := splitKeepGo sep s 0 []

/-- Total character length of a list of units. -/
def sumLen (l : List Str) : Nat := (l.map List.length).sum

/-- Join the merge window with the empty separator and strip it; an empty
result is dropped (the join-docs step of the recursive splitter). -/
def joinDocs (cur : List Str) : Option Str :=
  let t := strip cur.flatten
  if t.isEmpty then none else some t

/-- Overlap retention: pop units from the front of the window while it is
larger than the overlap or would not fit together with the incoming unit. -/
def popWhile (cs ov uLen : Nat) : List Str → List Str
  | [] => []
  | u :: rest =>
    let total := sumLen (u :: rest)
    if decide (ov < total) || (decide (cs < total + uLen) && decide (0 < total)) then
      popWhile cs ov uLen rest
    else u :: rest

/-- Modelled from the spec: greedy merge of units into pieces of at most the
configured character size, keeping a character-measured overlap window
between adjacent pieces. -/
def mergeGo (cs ov : Nat) : List Str → List Str → List Str
  | [], cur => (joinDocs cur).toList
  | u :: us, cur =>
    if decide (cs < sumLen cur + u.length) && !cur.isEmpty then
      (joinDocs cur).toList ++ mergeGo cs ov us (popWhile cs ov u.length cur ++ [u])
    else mergeGo cs ov us (cur ++ [u])

/-- Merge a unit list into size-bounded pieces. -/
def mergeUnits (cs ov : Nat) (units : List Str) : List Str := mergeGo cs ov units []

/-- Process the units of one separator level: units under the size go into
the merge window; an oversized unit first flushes the window, then is handled
by the next separator level. -/
def splitLongs (cs ov : Nat) (next : Str → List Str) : List Str → List Str → List Str
  | [], good => mergeUnits cs ov good
  | u :: us, good =>
    if decide (u.length < cs) then splitLongs cs ov next us (good ++ [u])
    else mergeUnits cs ov good ++ next u ++ splitLongs cs ov next us []

/-- Character-level fallback of the cascade (the empty separator: an
oversized unit at this level is emitted as is). -/
def splitLevelChar (cs ov : Nat) (s : Str) : List Str :=
  splitLongs cs ov (fun u => [u]) (s.map (fun c => [c])) []

/-- Word-boundary level of the cascade. -/
def splitLevelWord (cs ov : Nat) (s : Str) : List Str :=
  if occursIn [' '] s then splitLongs cs ov (splitLevelChar cs ov) (splitKeep [' '] s) []
  else splitLevelChar cs ov s

/-- Sentence-boundary level of the cascade. -/
def splitLevelSentence (cs ov : Nat) (s : Str) : List Str :=
  if occursIn ['.', ' '] s then
    splitLongs cs ov (splitLevelWord cs ov) (splitKeep ['.', ' '] s) []
  else splitLevelWord cs ov s

/-- Line-boundary level of the cascade. -/
def splitLevelLine (cs ov : Nat) (s : Str) : List Str :=
  if occursIn ['\n'] s then
    splitLongs cs ov (splitLevelSentence cs ov) (splitKeep ['\n'] s) []
  else splitLevelSentence cs ov s

/-- Modelled from the spec: stage 2 cascading separator strategy with the
fixed separator list paragraph, line, sentence, word, character (chunker.py
line 99). -/
def recursiveSplit (cs ov : Nat) (s : Str) : List Str :=
  if occursIn ['\n', '\n'] s then
    splitLongs cs ov (splitLevelLine cs ov) (splitKeep ['\n', '\n'] s) []
  else splitLevelLine cs ov s

/-- Configured maximum approximate tokens per chunk (settings.py line 21). -/
def MAX_CHUNK_TOKENS : Nat := 1000

/-- Configured character size of the secondary splitter (settings.py). -/
def SECONDARY_CHUNK_SIZE : Nat := 800

/-- Configured character overlap of the secondary splitter (settings.py). -/
def SECONDARY_CHUNK_OVERLAP : Nat := 100

/-- Configured orphan threshold in approximate tokens (settings.py). -/
def ORPHAN_CHUNK_MIN_TOKENS : Nat := 25

/-- DocumentChunker._count_tokens: character length divided by four. -/
def countTokens (s : Str) : Nat := s.length / 4

/-- Python str.split with no argument: whitespace-separated words, with the
current word held reversed. -/
def pyWordsGo : Str → Str → List Str
  | [], cur => if cur.isEmpty then [] else [cur.reverse]
  | c :: cs, cur =>
    if isPyWs c then
      (if cur.isEmpty then [] else [cur.reverse]) ++ pyWordsGo cs []
    else pyWordsGo cs (c :: cur)

/-- Whitespace-separated words of a string. -/
def pyWords (s : Str) : List Str := pyWordsGo s []

/-- DocumentChunker._is_orphan_chunk with the default minimum of five words:
markdown punctuation becomes whitespace, then the word count is tested. -/
def isOrphanChunk (s : Str) : Bool :=
  let clean := s.map (fun c =>
    if c = '#' || c = '*' || c = '_' || c = '-' || c = '|' then ' ' else c)
  decide ((pyWords clean).length < 5)

/-- A document chunk (the dataclass of chunker.py lines 26-31). -/
structure Chunk where
  content : Str
  metadata : SegMeta
  token_count : Nat
deriving DecidableEq, Repr

/-- Secondary splitting of one oversized header segment (chunker.py lines
191-204): enumerate the pieces, skip orphan pieces, attach a one-based
sub_chunk index from the enumeration. -/
def secondaryChunks (meta : SegMeta) (content : Str) : List Chunk :=
  (recursiveSplit SECONDARY_CHUNK_SIZE SECONDARY_CHUNK_OVERLAP content).enum.filterMap
    (fun p =>
      if isOrphanChunk p.2 then none
      else some ⟨strip p.2, ⟨meta.article, meta.sectionName, some (p.1 + 1)⟩,
        countTokens p.2⟩)

/-- Stages 1 to 3 of DocumentChunker.chunk (chunker.py lines 178-211):
clean, split by headers, re-split oversized segments. -/
def preliminaryChunks (text : Str) : List Chunk :=
  (headerSplit (cleanText text)).flatMap (fun seg =>
    let tc := countTokens seg.1
    if MAX_CHUNK_TOKENS < tc then secondaryChunks seg.2 seg.1
    else [⟨strip seg.1, seg.2, tc⟩])

/-- Next-chunk-wins union of two Python metadata dicts. -/
def mergeMeta (a b : SegMeta) : SegMeta :=
  ⟨(b.article).orElse (fun _ => a.article),
   (b.sectionName).orElse (fun _ => a.sectionName),
   (b.subChunk).orElse (fun _ => a.subChunk)⟩

/-- Two newlines, the joiner inserted between merged orphan chunks. -/
def nn : Str := ['\n', '\n']

/-- Merge an orphan chunk into its successor (chunker.py lines 228-239):
contents joined by two newlines, metadata merged with the next chunk
winning, token count recomputed on the joined content. -/
def mergeChunks (a b : Chunk) : Chunk :=
  let mc := a.content ++ nn ++ b.content
  ⟨strip mc, mergeMeta a.metadata b.metadata, countTokens mc⟩

/-- One full merge pass over the chunk list (the while loop of chunker.py
lines 223-245); the flag records whether any merge happened. -/
def orphanPass : List Chunk → List Chunk × Bool
  | [] => ([], false)
  | [c] => ([c], false)
  | a :: b :: rest =>
    if a.token_count < ORPHAN_CHUNK_MIN_TOKENS then
      (mergeChunks a b :: (orphanPass rest).1, true)
    else
      let p := orphanPass (b :: rest)
      (a :: p.1, p.2)

/-- The capped fixed-point iteration of merge passes (chunker.py lines
216-251, max_iterations = 10). -/
def orphanLoop : Nat → List Chunk → List Chunk
  | 0, cs => cs
  | k + 1, cs =>
    let p := orphanPass cs
    if p.2 then orphanLoop k p.1 else p.1

/-- DocumentChunker.chunk. -/
def chunkDocument (text : Str) : List Chunk :=
  orphanLoop 10 (preliminaryChunks text)

/-- Stripped and nonempty: the shape of every piece of content the chunker
stores. -/
def SNE (s : Str) : Prop := s ≠ [] ∧ strip s = s

/-- Invariant of every chunk the chunker stores: nonempty stripped content
whose token count is the character-length-over-four of that content. -/
def GoodChunk (c : Chunk) : Prop :=
  c.content ≠ [] ∧ strip c.content = c.content ∧ c.token_count = countTokens c.content

/-- Lower bound on the content length of every non-last chunk that is still
below the orphan threshold. -/
def MinOrphan (k : Nat) (cs : List Chunk) : Prop :=
  ∀ c ∈ cs.dropLast, c.token_count < ORPHAN_CHUNK_MIN_TOKENS → k ≤ c.content.length

/-- The head of the string, when present, is not whitespace. -/
def HeadNotWs (s : Str) : Prop := ∀ c, s.head? = some c → isPyWs c = false

/-- The last character of the string, when present, is not whitespace. -/
def LastNotWs (s : Str) : Prop := ∀ c, s.getLast? = some c → isPyWs c = false


/-! ### Definitions for claim C8: presence of the table-of-contents markers -/

/-- Does TOC_SECTION_PATTERN match anywhere in the text? -/
def hasTocSectionMarker : Str → Bool
  | [] => false
  | c :: cs => (tocSectionLen (c :: cs)).isSome || hasTocSectionMarker cs

/-- Does TOC_PATTERN match at any line start (the flag tracks whether the
current position is a line start)? -/
def hasTocEntryMarkerGo : Str → Bool → Bool
  | [], _ => false
  | c :: cs, atStart =>
    (atStart && (tocEntryLen (c :: cs)).isSome) || hasTocEntryMarkerGo cs (c = '\n')

/-- Does TOC_PATTERN match anywhere in the text? -/
def hasTocEntryMarker (s : Str) : Bool := hasTocEntryMarkerGo s true

open List

/-! ### Shapes used by the content-provenance claim C5 -/

/-- A chunkʼs content is pieced from base strings: either a base string
itself, or two pieced contents joined by the two-newline separator that the
orphan merge inserts. -/
inductive PiecedFrom (base : Str → Prop) : Str → Prop
  | ofBase {s : Str} : base s → PiecedFrom base s
  | joined {a b : Str} :
      PiecedFrom base a → PiecedFrom base b → PiecedFrom base (a ++ nn ++ b)

/-- Line lists related by dropping lines and shrinking kept lines to
sublists, in order. -/
inductive SubLines : List Str → List Str → Prop
  | nil : SubLines [] []
  | skip (l : Str) {ls₁ ls₂ : List Str} : SubLines ls₁ ls₂ → SubLines ls₁ (l :: ls₂)
  | keep {s l : Str} {ls₁ ls₂ : List Str} :
      s <+ l → SubLines ls₁ ls₂ → SubLines (s :: ls₁) (l :: ls₂)

/-! ### The enrichment strategy (enricher.py) -/

/-- EnrichedChunk of enricher.py lines 32-51 (field defaults are the Python
dataclass defaults). -/
structure EnrichedChunk where
  content : Str
  original_metadata : SegMeta
  token_count : Nat
  chunk_index : Nat
  source_document : Str
  source_section : Str
  char_start : Nat
  char_end : Nat
  page_numbers : List Nat
  contextual_summary : Str
  semantic_tags : List Str
  key_entities : List Str
  clause_type : Str
deriving DecidableEq, Repr

/-- The enriched_content property: contextual summary prefixed to the
content when a summary exists. -/
def enrichedContent (e : EnrichedChunk) : Str :=
  if e.contextual_summary.isEmpty then e.content
  else e.contextual_summary ++ nn ++ e.content

/-- CLAUSE_TYPES of settings.py lines 46-62. -/
def CLAUSE_TYPES : List Str :=
  [S "definitions", S "rent_payment", S "security_deposit", S "maintenance_repairs",
   S "insurance", S "default_remedies", S "termination", S "assignment_subletting",
   S "use_restrictions", S "environmental", S "indemnification", S "general_provisions",
   S "schedules_exhibits", S "parties_recitals", S "other"]

/-- Python str.replace(pat, "") for a nonempty pattern: remove every
occurrence, scanning left to right. -/
def pyRemoveAllGo (pat : Str) : Str → Nat → Str
  | [], _ => []
  | _ :: cs, k + 1 => pyRemoveAllGo pat cs k
  | c :: cs, 0 =>
    if pat.isPrefixOf (c :: cs) then pyRemoveAllGo pat cs (pat.length - 1)
    else c :: pyRemoveAllGo pat cs 0

/-- Remove every occurrence of a nonempty pattern. -/
def pyRemoveAll (pat s : Str) : Str := pyRemoveAllGo pat s 0

/-- One of the characters stripped by str.strip of a bracket pair. -/
def isBracketChar (c : Char) : Bool := c = '[' || c = ']'

/-- Python str.strip with the bracket characters. -/
def stripBrackets (s : Str) : Str :=
  ((s.dropWhile isBracketChar).reverse.dropWhile isBracketChar).reverse

/-- Python str.split on a comma. -/
def splitComma : Str → List Str
  | [] => [[]]
  | c :: cs =>
    if c = ',' then [] :: splitComma cs
    else
      match splitComma cs with
      | [] => [[c]]
      | p :: ps => (c :: p) :: ps

/-- The fixed-field structured response parsed from the model output
(_parse_response defaults in enricher.py lines 145-150). -/
structure ParsedEnrichment where
  contextual_summary : Str
  semantic_tags : List Str
  key_entities : List Str
  clause_type : Str
deriving DecidableEq, Repr

/-- Parse a bracketed comma-separated list as _parse_response does. -/
def parseTagList (rest : Str) : List Str :=
  ((splitComma (stripBrackets (strip rest))).map strip).filter (fun t => !t.isEmpty)

/-- Process one labeled line of the model response (the loop body of
_parse_response, enricher.py lines 152-174). -/
def parseLine (acc : ParsedEnrichment) (line : Str) : ParsedEnrichment :=
  let l := strip line
  if (S "CONTEXTUAL_SUMMARY:").isPrefixOf l then
    ⟨strip (pyRemoveAll (S "CONTEXTUAL_SUMMARY:") l), acc.semantic_tags,
      acc.key_entities, acc.clause_type⟩
  else if (S "SEMANTIC_TAGS:").isPrefixOf l then
    ⟨acc.contextual_summary, parseTagList (pyRemoveAll (S "SEMANTIC_TAGS:") l),
      acc.key_entities, acc.clause_type⟩
  else if (S "KEY_ENTITIES:").isPrefixOf l then
    ⟨acc.contextual_summary, acc.semantic_tags,
      parseTagList (pyRemoveAll (S "KEY_ENTITIES:") l), acc.clause_type⟩
  else if (S "CLAUSE_TYPE:").isPrefixOf l then
    let cl := (strip (pyRemoveAll (S "CLAUSE_TYPE:") l)).map Char.toLower
    if cl ∈ CLAUSE_TYPES then
      ⟨acc.contextual_summary, acc.semantic_tags, acc.key_entities, cl⟩
    else acc
  else acc

/-- ChunkEnricher._parse_response. -/
def parseResponse (text : Str) : ParsedEnrichment :=
  (splitNL (strip text)).foldl parseLine ⟨[], [], [], S "other"⟩

/-- The article value if present and nonempty, else the section value
(metadata.get article or metadata.get section in enricher.py). -/
def metaArticleOrSection (m : SegMeta) : Str :=
  let a := m.article.getD []
  if a.isEmpty then m.sectionName.getD [] else a

/-- ChunkEnricher.enrich_chunk (enricher.py lines 177-247).  The generative
call and the reading of its response body are modelled by the injected
response value: ok means the call returned that text, error means the call
or the response access raised; the except branch of the source returns the
unenriched chunk, so this function is total and never raises. -/
def enrichChunkLLM (content : Str) (metadata : SegMeta) (token_count chunk_index : Nat)
    (source_document : Str) (char_start char_end : Nat) (page_numbers : List Nat)
    (response : Except Str Str) : EnrichedChunk :=
  let source_section := metaArticleOrSection metadata
  match response with
  | Except.ok t =>
    let p := parseResponse t
    ⟨content, metadata, token_count, chunk_index, source_document, source_section,
      char_start, char_end, page_numbers, p.contextual_summary, p.semantic_tags,
      p.key_entities, p.clause_type⟩
  | Except.error _ =>
    ⟨content, metadata, token_count, chunk_index, source_document, source_section,
      char_start, char_end, page_numbers, [], [], [], []⟩

/-! ### The ingestion pipeline (ingest_pipeline.py) -/

/-- An embedding vector; provider floats are modelled as rationals. -/
abbrev Vec := List Rat

/-- The fixed-dimension zero-vector placeholder of ingest_pipeline.py line
283. -/
def placeholderVec : Vec := List.replicate 768 0

/-- EMBEDDING_BATCH_SIZE of settings.py line 34. -/
def EMBEDDING_BATCH_SIZE : Nat := 50

/-- Structured lease record: the fields of the extractor result consumed by
_prepare_vector_metadata. -/
structure Lease where
  tenant_name : Str
  landlord_name : Str
  property_address : Option Str
  trade_name : Option Str
  term_years : Nat
deriving DecidableEq, Repr

/-- Decimal string of a natural number. -/
def natStr (n : Nat) : Str := (Nat.repr n).data

/-- Join strings with a separator. -/
def joinSep (sep : Str) : List Str → Str
  | [] => []
  | [x] => x
  | x :: xs => x ++ sep ++ joinSep sep xs

/-- The source_reference property of EnrichedChunk (enricher.py lines
53-65). -/
def sourceReference (e : EnrichedChunk) : Str :=
  joinSep (S " • ")
    ((if e.source_document.isEmpty then [] else [e.source_document]) ++
     (if e.source_section.isEmpty then [] else [S "§" ++ e.source_section]) ++
     (if e.page_numbers.isEmpty then []
      else [S "p." ++ joinSep (S ", ") (e.page_numbers.map natStr)]) ++
     [S "[Chunk " ++ natStr (e.chunk_index + 1) ++ S "]"])

/-- Metadata attached to each vector (_prepare_vector_metadata,
ingest_pipeline.py lines 159-187). -/
structure VectorMeta where
  document : Str
  chunk_index : Nat
  source_section : Str
  source_reference : Str
  clause_type : Str
  semantic_tags : List Str
  contextual_summary : Str
  tenant_name : Str
  landlord_name : Str
  property_address : Str
  trade_name : Str
  term_years : Nat
  text : Str
deriving DecidableEq, Repr

/-- Build the vector metadata for one chunk. -/
def prepareVectorMetadata (chunk : EnrichedChunk) (lease : Lease)
    (document_name : Str) : VectorMeta :=
  ⟨document_name, chunk.chunk_index, chunk.source_section, sourceReference chunk,
   chunk.clause_type, chunk.semantic_tags,
   (if chunk.contextual_summary.isEmpty then [] else chunk.contextual_summary.take 500),
   lease.tenant_name, lease.landlord_name, lease.property_address.getD [],
   lease.trade_name.getD [], lease.term_years, chunk.content.take 1000⟩

/-- A vector as sent to the index: id, values and metadata. -/
structure PineVector where
  id : Str
  values : Vec
  metadata : VectorMeta
deriving DecidableEq, Repr

/-- os.path.basename: the part after the last slash. -/
def basenameGo : Str → Str → Str
  | [], acc => acc.reverse
  | c :: cs, acc => if c = '/' then basenameGo cs [] else basenameGo cs (c :: acc)

/-- os.path.basename. -/
def basenameOf (p : Str) : Str := basenameGo p []

/-- Index of the last occurrence of a character. -/
def lastIdxOf (t : Char) : Str → Option Nat
  | [] => none
  | c :: cs =>
    match lastIdxOf t cs with
    | some i => some (i + 1)
    | none => if c = t then some 0 else none

/-- pathlib Path.stem: the final path component with its suffix removed
(the suffix starts at the last dot, when that dot is neither the first nor
the last character of the name). -/
def pathStem (p : Str) : Str :=
  let nameB := basenameOf p
  match lastIdxOf '.' nameB with
  | some i => if 0 < i ∧ i < nameB.length - 1 then nameB.take i else nameB
  | none => nameB

/-- The deterministic vector id of ingest_pipeline.py line 298. -/
def vectorId (stem : Str) (i : Nat) : Str := stem ++ S "_chunk_" ++ natStr i

/-- The embedding loop of ingest_pipeline.py lines 261-288.  Batches are
consecutive slices of the text list; the per-batch outcome of the provider
call with its retries is injected as the oracle (none means the three
attempts were exhausted).  A failed batch contributes one placeholder per
text of the batch and records the batch text indices.  The fuel argument,
initially the number of texts, bounds the number of batches since every
batch consumes at least one text. -/
def embedGo (oracle : Nat → Option (List Vec)) (bs : Nat) :
    Nat → Nat → Nat → List Str → List Vec × List Nat
  | 0, _, _, _ => ([], [])
  | _ + 1, _, _, [] => ([], [])
  | fuel + 1, bIdx, pos, t :: ts2 =>
    let batch := (t :: ts2).take (max bs 1)
    let rest := (t :: ts2).drop (max bs 1)
    let tail := embedGo oracle bs fuel (bIdx + 1) (pos + batch.length) rest
    match oracle bIdx with
    | some vs => (vs ++ tail.1, tail.2)
    | none =>
      (List.replicate batch.length placeholderVec ++ tail.1,
       List.range' pos batch.length ++ tail.2)

/-- The embedding stage: all embeddings in order, and the chunk indices of
the batches whose retries exhausted. -/
def embedStage (oracle : Nat → Option (List Vec)) (bs : Nat)
    (texts : List Str) : List Vec × List Nat :=
  embedGo oracle bs texts.length 0 0 texts

/-- The upload loop of ingest_pipeline.py lines 307-331: upserts in batches
of one hundred, recording the ids of batches whose retries exhausted. -/
def upsertGo (ok : Nat → Bool) (bs : Nat) : Nat → Nat → List PineVector → List Str
  | 0, _, _ => []
  | _ + 1, _, [] => []
  | fuel + 1, bIdx, v :: vs2 =>
    let batch := (v :: vs2).take (max bs 1)
    let rest := (v :: vs2).drop (max bs 1)
    (if ok bIdx then [] else batch.map (fun w => w.id)) ++
      upsertGo ok bs fuel (bIdx + 1) rest

/-- The upload stage: ids of the vectors in permanently failed batches. -/
def upsertStage (ok : Nat → Bool) (bs : Nat) (vectors : List PineVector) : List Str :=
  upsertGo ok bs vectors.length 0 vectors

/-- PipelineConfig of ingest_pipeline.py lines 49-66 (delays are rationals
standing for the float seconds; sleeping has no observable effect in the
model). -/
structure PipelineConfig where
  enable_enrichment : Bool
  enrichment_batch_size : Nat
  enrichment_delay_seconds : Rat
  embedding_model : Str
  embedding_batch_size : Nat
  embedding_delay_seconds : Rat
  pinecone_namespace : Str
  metadata_store_path : Str
deriving DecidableEq, Repr

/-- The default configuration built from settings.py. -/
def defaultConfig : PipelineConfig :=
  ⟨true, 5, 12, S "models/text-embedding-004", EMBEDDING_BATCH_SIZE, 1 / 2,
   S "leases-test", S "data/metadata_store.json"⟩

/-- PipelineResult of ingest_pipeline.py lines 69-78.  The wall-clock
processing_time_seconds field is not modelled. -/
structure PipelineResult where
  document_name : Str
  success : Bool
  chunks_processed : Nat
  vectors_uploaded : Nat
  lease_data : Option Lease
  error_message : Option Str
deriving DecidableEq, Repr

/-- Outcomes of the external collaborators during one run, injected into
the model: the parser, the structured extractor (a function of the bounded
text window it receives), the enricher (a positional map over chunks,
covering the LLM, rule-based and disabled variants), the per-batch embedding
outcome after retries, the per-batch upsert outcome after retries, the
relational insert, and the best-effort clause extraction. -/
structure RunEnv where
  parseResult : Except Str Str
  extractResult : Str → Except Str Lease
  enrichOne : Nat → Chunk → EnrichedChunk
  embedOracle : Nat → Option (List Vec)
  upsertOk : Nat → Bool
  insertLease : Except Str Nat
  clauseOutcome : Except Str Nat

/-- Internal lists of one run, returned next to the PipelineResult so that
theorems can speak about them: the embedding list, the recorded failed
embedding indices, the built vectors, and the recorded failed upload ids. -/
structure RunTrace where
  embeddings : List Vec
  failedEmbeddingIndices : List Nat
  vectors : List PineVector
  failedVectors : List Str
deriving DecidableEq, Repr

/-- The trace of a run that aborted before the embedding stage. -/
def emptyTrace : RunTrace := ⟨[], [], [], []⟩

/-- The failure PipelineResult built in the except handler of run
(ingest_pipeline.py lines 374-384): success false, zero counts, the
exception text as message. -/
def failureResult (document_name e : Str) : PipelineResult :=
  ⟨document_name, false, 0, 0, none, some e⟩

/-- The basic EnrichedChunk built when enrichment is disabled
(ingest_pipeline.py lines 243-254). -/
def basicEnrichedChunk (document_name : Str) (i : Nat) (c : Chunk) : EnrichedChunk :=
  ⟨c.content, c.metadata, c.token_count, i, document_name,
    metaArticleOrSection c.metadata, 0, 0, [], [], [], [], []⟩

/-- IngestionPipeline.run (ingest_pipeline.py lines 189-384): parse, chunk,
extract over the bounded window, enrich, embed in batches with placeholder
fallback, build deterministically named vectors, upsert in batches, persist
the lease record, attempt clause extraction (whose outcome is caught and
cannot affect the result), and return the result.  Any exception before the
embedding stage, and any exception of the insert, is converted into a
failure result by the top-level handler. -/
def runPipeline (env : RunEnv) (cfg : PipelineConfig) (filePath : Str) :
    PipelineResult × RunTrace :=
  let document_name := basenameOf filePath
  match env.parseResult with
  | Except.error e => (failureResult document_name e, emptyTrace)
  | Except.ok fullText =>
    let chunks := chunkDocument fullText
    match env.extractResult (fullText.take 150000) with
    | Except.error e => (failureResult document_name e, emptyTrace)
    | Except.ok lease =>
      let enriched :=
        if cfg.enable_enrichment then chunks.enum.map (fun p => env.enrichOne p.1 p.2)
        else chunks.enum.map (fun p => basicEnrichedChunk document_name p.1 p.2)
      let texts := enriched.map enrichedContent
      let emb := embedStage env.embedOracle cfg.embedding_batch_size texts
      let vectorsToUpsert := (enriched.zip emb.1).enum.map (fun q =>
        ⟨vectorId (pathStem filePath) q.1, q.2.2,
          prepareVectorMetadata q.2.1 lease document_name⟩)
      let failedVecs := upsertStage env.upsertOk 100 vectorsToUpsert
      match env.insertLease with
      | Except.error e =>
        (failureResult document_name e, ⟨emb.1, emb.2, vectorsToUpsert, failedVecs⟩)
      | Except.ok _ =>
        (⟨document_name, true, chunks.length, vectorsToUpsert.length, some lease, none⟩,
         ⟨emb.1, emb.2, vectorsToUpsert, failedVecs⟩)

/-- Input showing that the concatenation of output chunk contents is not a
subsequence of the normalized input: the header-only first chunk is merged
into its successor with a fabricated two-newline joiner, while the cleaned
text holds a single newline there. -/
def c5Text : Str :=
  S "# A\n# B\norange banana cherry dragonfruit elderberry fig grape honeydew kiwi lemon mango nectarine peach"

/-- Input with no table-of-contents marker on which normalization still
changes the text (blank-line collapsing). -/
def c8Text : Str := S "a\n\n\n\nb"

/-- Run environment whose parser raises with message boom. -/
def c4wEnvParse : RunEnv :=
  ⟨Except.error (S "boom"), fun _ => Except.ok ⟨S "T", S "L", none, none, 5⟩,
   fun i ch => basicEnrichedChunk (S "w.pdf") i ch, fun _ => none, fun _ => true,
   Except.ok 1, Except.ok 0⟩

/-- Run environment whose parser succeeds and whose structured extractor
raises with message bad extract. -/
def c4wEnvExtract : RunEnv :=
  ⟨Except.ok (S "d"), fun _ => Except.error (S "bad extract"),
   fun i ch => basicEnrichedChunk (S "w.pdf") i ch, fun _ => none, fun _ => true,
   Except.ok 1, Except.ok 0⟩

/-- Run environment whose parser raises an exception with an empty message
(as str of a bare Python exception can be). -/
def c4cexEnv : RunEnv :=
  ⟨Except.error [], fun _ => Except.ok ⟨S "T", S "L", none, none, 5⟩,
   fun i ch => basicEnrichedChunk (S "w.pdf") i ch, fun _ => none, fun _ => true,
   Except.ok 1, Except.ok 0⟩

/-- The enriched chunk list of a run whose parse returned the given text
(each enrichment variant is a positional map over the chunks). -/
def enrichedOf (env : RunEnv) (cfg : PipelineConfig) (fp fullText : Str) :
    List EnrichedChunk :=
  if cfg.enable_enrichment then
    (chunkDocument fullText).enum.map (fun p => env.enrichOne p.1 p.2)
  else
    (chunkDocument fullText).enum.map (fun p => basicEnrichedChunk (basenameOf fp) p.1 p.2)

/-- The texts submitted to the embedding provider. -/
def textsOf (env : RunEnv) (cfg : PipelineConfig) (fp fullText : Str) : List Str :=
  (enrichedOf env cfg fp fullText).map enrichedContent

/-- The vectors built for upsert, with their deterministic ids. -/
def vectorsOf (env : RunEnv) (cfg : PipelineConfig) (fp fullText : Str)
    (lease : Lease) : List PineVector :=
  ((enrichedOf env cfg fp fullText).zip
      (embedStage env.embedOracle cfg.embedding_batch_size
        (textsOf env cfg fp fullText)).1).enum.map
    (fun q => ⟨vectorId (pathStem fp) q.1, q.2.2,
      prepareVectorMetadata q.2.1 lease (basenameOf fp)⟩)

/-- Per-batch shape of the embedding list: a failed batch contributes one
placeholder per text of the batch, a successful batch contributes exactly
the providerʼs vectors. -/
def embedVecsSpec (oracle : Nat → Option (List Vec)) (step : Nat) :
    Nat → Nat → List Str → List Vec
  | 0, _, _ => []
  | _ + 1, _, [] => []
  | fuel + 1, bIdx, t :: ts =>
    (match oracle bIdx with
     | some vs => vs
     | none => List.replicate ((t :: ts).take step).length placeholderVec) ++
      embedVecsSpec oracle step fuel (bIdx + 1) ((t :: ts).drop step)

/-- Per-batch shape of the recorded failed indices: exactly the index range
of each batch whose retries exhausted. -/
def embedIdxSpec (oracle : Nat → Option (List Vec)) (step : Nat) :
    Nat → Nat → Nat → List Str → List Nat
  | 0, _, _, _ => []
  | _ + 1, _, _, [] => []
  | fuel + 1, bIdx, pos, t :: ts =>
    (match oracle bIdx with
     | some _ => []
     | none => List.range' pos ((t :: ts).take step).length) ++
      embedIdxSpec oracle step fuel (bIdx + 1) (pos + ((t :: ts).take step).length)
        ((t :: ts).drop step)

/-- The alignment contract of the embedding provider (spec section 6): a
successful batch call returns exactly one vector per text of the batch. -/
def EmbAligned (env : RunEnv) (cfg : PipelineConfig) (fp fullText : Str) : Prop :=
  ∀ j vs, env.embedOracle j = some vs →
    vs.length = (((textsOf env cfg fp fullText).drop
      (j * max cfg.embedding_batch_size 1)).take (max cfg.embedding_batch_size 1)).length

/-- Shared lease record of the concrete witness runs. -/
def wLease : Lease := ⟨S "T", S "L", none, none, 5⟩

/-- Witness run for the embedding-failure claim: the provider fails every
batch permanently. -/
def c2wEnv : RunEnv :=
  ⟨Except.ok (S "d"), fun _ => Except.ok wLease,
   fun i ch => basicEnrichedChunk (S "w.pdf") i ch, fun _ => none, fun _ => true,
   Except.ok 1, Except.ok 0⟩

/-- Witness run for the deterministic-id claim: the provider succeeds with
one vector for the single one-chunk batch. -/
def c3wEnv : RunEnv :=
  ⟨Except.ok (S "d"), fun _ => Except.ok wLease,
   fun i ch => basicEnrichedChunk (S "w.pdf") i ch,
   fun j => if j = 0 then some [[1]] else none, fun _ => true,
   Except.ok 1, Except.ok 0⟩

/-- Witness run for the uploaded-count claim: every upload batch fails
permanently. -/
def c10wEnv : RunEnv :=
  ⟨Except.ok (S "d"), fun _ => Except.ok wLease,
   fun i ch => basicEnrichedChunk (S "w.pdf") i ch,
   fun j => if j = 0 then some [[1]] else none, fun _ => false,
   Except.ok 1, Except.ok 0⟩

/-- One 498-character newline-free paragraph of the five-thousand-character
scenario section of claim C6. -/
def scenPara : Str :=
  S "lorem ipsum dolor sit am lorem ipsum dolor sit am lorem ipsum dolor sit am lorem ipsum dolor sit am lorem ipsum dolor sit am lorem ipsum dolor sit am lorem ipsum dolor sit am lorem ipsum dolor sit am lorem ipsum dolor sit am lorem ipsum dolor sit am lorem ipsum dolor sit am lorem ipsum dolor sit am lorem ipsum dolor sit am lorem ipsum dolor sit am lorem ipsum dolor sit am lorem ipsum dolor sit am lorem ipsum dolor sit am lorem ipsum dolor sit am lorem ipsum dolor sit am alpha beta gamma delta!"

/-- The 500-character closing paragraph of the scenario section. -/
def scenParaLast : Str :=
  S "lorem ipsum dolor sit am lorem ipsum dolor sit am lorem ipsum dolor sit am lorem ipsum dolor sit am lorem ipsum dolor sit am lorem ipsum dolor sit am lorem ipsum dolor sit am lorem ipsum dolor sit am lorem ipsum dolor sit am lorem ipsum dolor sit am lorem ipsum dolor sit am lorem ipsum dolor sit am lorem ipsum dolor sit am lorem ipsum dolor sit am lorem ipsum dolor sit am lorem ipsum dolor sit am lorem ipsum dolor sit am lorem ipsum dolor sit am lorem ipsum dolor sit am alpha beta gamma deltas!!"

/-- Join paragraphs with blank lines (the paragraph separator of the
secondary splitter). -/
def joinPP : List Str → Str
  | [] => []
  | [q] => q
  | q :: qs => q ++ nn ++ joinPP qs

/-- The paragraphs of the scenario section. -/
def scenParas : List Str :=
  [scenPara, scenPara, scenPara, scenPara, scenPara, scenPara, scenPara, scenPara,
   scenPara, scenParaLast]

/-- The five-thousand-character section of the claim C6 scenario: ten
paragraphs separated by blank lines. -/
def section5000 : Str := joinPP scenParas

/-! ### Basic facts about strip and whitespace -/

theorem dropWhile_eq_self_iff_head {p : Char → Bool} {s : Str} :
    s.dropWhile p = s ↔ ∀ c, s.head? = some c → p c = false := by
  cases s with
  | nil => simp
  | cons a t =>
    rw [List.dropWhile_cons]
    constructor
    · intro h c hc
      simp only [List.head?_cons, Option.some.injEq] at hc
      subst hc
      by_contra hp
      rw [Bool.not_eq_false] at hp
      rw [hp, if_pos rfl] at h
      have hlen := congrArg List.length h
      have hle := (List.dropWhile_sublist (l := t) p).length_le
      simp at hlen
      omega
    · intro h
      rw [h a (by simp)]
      simp

theorem head_dropWhile_not (p : Char → Bool) (s : Str) :
    ∀ c, (s.dropWhile p).head? = some c → p c = false := by
  induction s with
  | nil => simp
  | cons a t ih =>
    intro c hc
    rw [List.dropWhile_cons] at hc
    by_cases hp : p a = true
    · rw [if_pos hp] at hc
      exact ih c hc
    · rw [if_neg hp] at hc
      simp only [List.head?_cons, Option.some.injEq] at hc
      subst hc
      exact Bool.eq_false_iff.mpr hp

theorem strip_sublist (s : Str) : strip s <+ s := by
  unfold strip
  have h2r := (List.dropWhile_sublist (l := (s.dropWhile isPyWs).reverse) isPyWs).reverse
  rw [List.reverse_reverse] at h2r
  exact h2r.trans (List.dropWhile_sublist isPyWs)

theorem strip_length_le (s : Str) : (strip s).length ≤ s.length :=
  (strip_sublist s).length_le

theorem head?_of_prefix {l r : Str} (h : l <+: r) (hne : l ≠ []) : r.head? = l.head? := by
  obtain ⟨t, rfl⟩ := h
  rw [List.head?_append]
  cases l with
  | nil => exact absurd rfl hne
  | cons a t2 => simp

theorem getLast?_of_suffix {l r : Str} (h : l <:+ r) (hne : l ≠ []) :
    r.getLast? = l.getLast? := by
  obtain ⟨t, rfl⟩ := h
  rw [List.getLast?_append]
  cases hl : l.getLast? with
  | some c => simp
  | none => exact absurd (List.getLast?_eq_none_iff.mp hl) hne

theorem strip_headNotWs (s : Str) : HeadNotWs (strip s) := by
  intro c hc
  have hne : strip s ≠ [] := by
    intro he
    rw [he] at hc
    simp at hc
  unfold strip at hc hne
  set t := s.dropWhile isPyWs with ht
  have hsuf : t.reverse.dropWhile isPyWs <:+ t.reverse := List.dropWhile_suffix isPyWs
  have hnei : t.reverse.dropWhile isPyWs ≠ [] := by
    intro he
    rw [he] at hne
    simp at hne
  have hlast : t.reverse.getLast? = (t.reverse.dropWhile isPyWs).getLast? :=
    getLast?_of_suffix hsuf hnei
  have hh : (t.reverse.dropWhile isPyWs).reverse.head? = (t.reverse.dropWhile isPyWs).getLast? := by
    rw [List.head?_reverse]
  rw [hh] at hc
  rw [← hlast] at hc
  have : t.head? = some c := by
    rw [← List.getLast?_reverse]
    exact hc
  exact head_dropWhile_not isPyWs s c this

theorem strip_lastNotWs (s : Str) : LastNotWs (strip s) := by
  intro c hc
  unfold strip at hc
  rw [List.getLast?_reverse] at hc
  exact head_dropWhile_not isPyWs (s.dropWhile isPyWs).reverse c hc

theorem strip_eq_self_iff {s : Str} : strip s = s ↔ HeadNotWs s ∧ LastNotWs s := by
  constructor
  · intro h
    refine ⟨?_, ?_⟩
    · rw [← h]; exact strip_headNotWs s
    · rw [← h]; exact strip_lastNotWs s
  · rintro ⟨h1, h2⟩
    unfold strip
    have he1 : s.dropWhile isPyWs = s := dropWhile_eq_self_iff_head.mpr h1
    have he2 : s.reverse.dropWhile isPyWs = s.reverse := by
      apply dropWhile_eq_self_iff_head.mpr
      intro c hc
      rw [List.head?_reverse] at hc
      exact h2 c hc
    rw [he1, he2, List.reverse_reverse]

theorem strip_idem (s : Str) : strip (strip s) = strip s :=
  strip_eq_self_iff.mpr ⟨strip_headNotWs s, strip_lastNotWs s⟩

theorem SNE.headNotWs {s : Str} (h : SNE s) : HeadNotWs s :=
  (strip_eq_self_iff.mp h.2).1

theorem SNE.lastNotWs {s : Str} (h : SNE s) : LastNotWs s :=
  (strip_eq_self_iff.mp h.2).2

theorem SNE_strip {s : Str} (h : strip s ≠ []) : SNE (strip s) :=
  ⟨h, strip_idem s⟩

theorem joinNL_cons_cons (l x : Str) (xs : List Str) :
    joinNL (l :: x :: xs) = l ++ '\n' :: joinNL (x :: xs) := rfl

theorem SNE_joinNL : ∀ ls : List Str, ls ≠ [] → (∀ l ∈ ls, SNE l) → SNE (joinNL ls)
  | [], h, _ => absurd rfl h
  | [l], _, hall => by
    simpa [joinNL] using hall l (by simp)
  | l :: x :: xs, _, hall => by
    have hl : SNE l := hall l (by simp)
    have ih : SNE (joinNL (x :: xs)) :=
      SNE_joinNL (x :: xs) (by simp) (fun g hg => hall g (by simp [hg]))
    rw [joinNL_cons_cons]
    constructor
    · simp [hl.1]
    · apply strip_eq_self_iff.mpr
      constructor
      · intro c hc
        rw [List.head?_append] at hc
        cases hh : l.head? with
        | some d =>
          rw [hh] at hc
          simp at hc
          subst hc
          exact hl.headNotWs d hh
        | none => exact absurd (List.head?_eq_none_iff.mp hh) hl.1
      · intro c hc
        rw [List.getLast?_append] at hc
        have hj : ('\n' :: joinNL (x :: xs)).getLast? = (joinNL (x :: xs)).getLast? := by
          rw [List.getLast?_cons]
          cases hg : (joinNL (x :: xs)).getLast? with
          | some d => simp
          | none => exact absurd (List.getLast?_eq_none_iff.mp hg) ih.1
        rw [hj] at hc
        cases hg : (joinNL (x :: xs)).getLast? with
        | some d =>
          rw [hg] at hc
          simp at hc
          subst hc
          exact ih.lastNotWs d hg
        | none => exact absurd (List.getLast?_eq_none_iff.mp hg) ih.1

theorem headerSplitGo_SNE :
    ∀ (lines : List Str) (meta : SegMeta) (acc : List Str),
      (∀ l ∈ acc, SNE l) →
      ∀ seg ∈ headerSplitGo meta acc lines, SNE seg.1
  | [], meta, acc, hacc, seg, hseg => by
    by_cases hac : acc.isEmpty
    · simp [headerSplitGo, hac] at hseg
    · simp only [headerSplitGo, hac, Bool.false_eq_true, if_neg, if_false,
        List.mem_singleton] at hseg
      subst hseg
      exact SNE_joinNL acc (by simpa [List.isEmpty_iff] using hac) hacc
  | line :: rest, meta, acc, hacc, seg, hseg => by
    rw [headerSplitGo] at hseg
    by_cases hst : (strip line).isEmpty
    · rw [if_pos hst] at hseg
      exact headerSplitGo_SNE rest meta acc hacc seg hseg
    · rw [if_neg hst] at hseg
      have hsne : SNE (strip line) :=
        SNE_strip (by simpa [List.isEmpty_iff] using hst)
      have hemit : ∀ s2 ∈ (if acc.isEmpty then ([] : List (Str × SegMeta))
          else [(joinNL acc, meta)]), SNE s2.1 := by
        intro s2 hs2
        by_cases hac : acc.isEmpty
        · simp [hac] at hs2
        · simp only [hac, Bool.false_eq_true, if_false, List.mem_singleton] at hs2
          subst hs2
          exact SNE_joinNL acc (by simpa [List.isEmpty_iff] using hac) hacc
      by_cases h2 : isHeader2 (strip line) = true
      · rw [if_pos h2] at hseg
        rcases List.mem_append.mp hseg with h | h
        · exact hemit seg h
        · exact headerSplitGo_SNE rest _ [strip line]
            (by intro l hl; simp at hl; subst hl; exact hsne) seg h
      · rw [if_neg h2] at hseg
        by_cases h1 : isHeader1 (strip line) = true
        · rw [if_pos h1] at hseg
          rcases List.mem_append.mp hseg with h | h
          · exact hemit seg h
          · exact headerSplitGo_SNE rest _ [strip line]
              (by intro l hl; simp at hl; subst hl; exact hsne) seg h
        · rw [if_neg h1] at hseg
          exact headerSplitGo_SNE rest meta (acc ++ [strip line])
            (by
              intro l hl
              rcases List.mem_append.mp hl with h | h
              · exact hacc l h
              · simp at h; subst h; exact hsne) seg hseg

theorem headerSplit_SNE (text : Str) :
    ∀ seg ∈ headerSplit text, SNE seg.1 :=
  headerSplitGo_SNE (splitNL text) emptyMeta [] (by simp)

theorem joinDocs_out {cur : List Str} {p : Str} (h : joinDocs cur = some p) :
    SNE p ∧ p.length ≤ sumLen cur := by
  unfold joinDocs at h
  by_cases he : (strip cur.flatten).isEmpty
  · simp [he] at h
  · simp only [he, Bool.false_eq_true, if_false, Option.some.injEq] at h
    subst h
    refine ⟨SNE_strip (by simpa [List.isEmpty_iff] using he), ?_⟩
    calc (strip cur.flatten).length ≤ cur.flatten.length := strip_length_le _
      _ = sumLen cur := by simp [sumLen]

theorem popWhile_spec (cs ov uLen : Nat) :
    ∀ l : List Str,
      sumLen (popWhile cs ov uLen l) ≤ ov ∧
      (sumLen (popWhile cs ov uLen l) + uLen ≤ cs ∨ sumLen (popWhile cs ov uLen l) = 0)
  | [] => by simp [popWhile, sumLen]
  | u :: rest => by
    rw [popWhile]
    by_cases hc : (decide (ov < sumLen (u :: rest)) ||
        (decide (cs < sumLen (u :: rest) + uLen) && decide (0 < sumLen (u :: rest)))) = true
    · rw [if_pos hc]
      exact popWhile_spec cs ov uLen rest
    · rw [if_neg hc]
      simp only [Bool.or_eq_true, Bool.and_eq_true, decide_eq_true_eq, not_or, not_and,
        not_lt] at hc
      obtain ⟨h1, h2⟩ := hc
      refine ⟨h1, ?_⟩
      by_cases h0 : 0 < sumLen (u :: rest)
      · left
        have := h2
        omega
      · right; omega

theorem mergeGo_spec (cs ov : Nat) :
    ∀ (us cur : List Str),
      (∀ u ∈ us, u.length < cs) → sumLen cur ≤ cs →
      ∀ p ∈ mergeGo cs ov us cur, SNE p ∧ p.length ≤ cs
  | [], cur, _, hcur, p, hp => by
    simp only [mergeGo] at hp
    cases hj : joinDocs cur with
    | none => simp [hj] at hp
    | some q =>
      rw [hj] at hp
      simp at hp
      subst hp
      obtain ⟨hs, hl⟩ := joinDocs_out hj
      exact ⟨hs, hl.trans hcur⟩
  | u :: us, cur, hus, hcur, p, hp => by
    rw [mergeGo] at hp
    have hu : u.length < cs := hus u (by simp)
    have hus2 : ∀ v ∈ us, v.length < cs := fun v hv => hus v (by simp [hv])
    by_cases hfire : (decide (cs < sumLen cur + u.length) && !cur.isEmpty) = true
    · rw [if_pos hfire] at hp
      rcases List.mem_append.mp hp with h | h
      · cases hj : joinDocs cur with
        | none => simp [hj] at h
        | some q =>
          rw [hj] at h
          simp at h
          subst h
          obtain ⟨hs, hl⟩ := joinDocs_out hj
          exact ⟨hs, hl.trans hcur⟩
      · apply mergeGo_spec cs ov us (popWhile cs ov u.length cur ++ [u]) hus2 _ p h
        obtain ⟨hp1, hp2⟩ := popWhile_spec cs ov u.length cur
        have : sumLen (popWhile cs ov u.length cur ++ [u]) =
            sumLen (popWhile cs ov u.length cur) + u.length := by
          simp [sumLen]
        omega
    · rw [if_neg hfire] at hp
      apply mergeGo_spec cs ov us (cur ++ [u]) hus2 _ p hp
      simp only [Bool.and_eq_true, Bool.not_eq_true', decide_eq_true_eq, not_and] at hfire
      have hsum : sumLen (cur ++ [u]) = sumLen cur + u.length := by simp [sumLen]
      by_cases hne : cur.isEmpty = true
      · have hz : sumLen cur = 0 := by
          rw [List.isEmpty_iff] at hne
          simp [hne, sumLen]
        omega
      · have hns : ¬(cs < sumLen cur + u.length) := by
          intro hlt
          cases hci : cur.isEmpty with
          | true => exact hne hci
          | false => exact hfire hlt hci
        omega

theorem mergeUnits_spec (cs ov : Nat) (units : List Str)
    (h : ∀ u ∈ units, u.length < cs) :
    ∀ p ∈ mergeUnits cs ov units, SNE p ∧ p.length ≤ cs :=
  mergeGo_spec cs ov units [] h (by simp [sumLen])

theorem splitLongs_spec (cs ov : Nat) (next : Str → List Str) :
    ∀ (us good : List Str),
      (∀ u ∈ good, u.length < cs) →
      (∀ u ∈ us, ¬(u.length < cs) → ∀ p ∈ next u, SNE p ∧ p.length ≤ cs) →
      ∀ p ∈ splitLongs cs ov next us good, SNE p ∧ p.length ≤ cs
  | [], good, hgood, _, p, hp => by
    rw [splitLongs] at hp
    exact mergeUnits_spec cs ov good hgood p hp
  | u :: us, good, hgood, hnext, p, hp => by
    rw [splitLongs] at hp
    by_cases hu : (decide (u.length < cs)) = true
    · rw [if_pos hu] at hp
      simp only [decide_eq_true_eq] at hu
      apply splitLongs_spec cs ov next us (good ++ [u]) _
        (fun v hv hvl => hnext v (by simp [hv]) hvl) p hp
      intro v hv
      rcases List.mem_append.mp hv with h | h
      · exact hgood v h
      · simp at h; subst h; exact hu
    · rw [if_neg hu] at hp
      simp only [decide_eq_true_eq] at hu
      rcases List.mem_append.mp hp with h | h
      · rcases List.mem_append.mp h with h2 | h2
        · exact mergeUnits_spec cs ov good hgood p h2
        · exact hnext u (by simp) hu p h2
      · exact splitLongs_spec cs ov next us [] (by simp)
            (fun v hv hvl => hnext v (by simp [hv]) hvl) p h

theorem splitLevelChar_spec (cs ov : Nat) (h2 : 2 ≤ cs) (s : Str) :
    ∀ p ∈ splitLevelChar cs ov s, SNE p ∧ p.length ≤ cs := by
  apply splitLongs_spec cs ov _ _ [] (by simp)
  intro u hu hul
  rcases List.mem_map.mp hu with ⟨c, _, rfl⟩
  exact absurd (by simp; omega) hul

theorem splitLevelWord_spec (cs ov : Nat) (h2 : 2 ≤ cs) (s : Str) :
    ∀ p ∈ splitLevelWord cs ov s, SNE p ∧ p.length ≤ cs := by
  unfold splitLevelWord
  by_cases ho : occursIn [' '] s = true
  · rw [if_pos ho]
    exact splitLongs_spec cs ov _ _ [] (by simp)
      (fun u _ _ => splitLevelChar_spec cs ov h2 u)
  · rw [if_neg ho]
    exact splitLevelChar_spec cs ov h2 s

theorem splitLevelSentence_spec (cs ov : Nat) (h2 : 2 ≤ cs) (s : Str) :
    ∀ p ∈ splitLevelSentence cs ov s, SNE p ∧ p.length ≤ cs := by
  unfold splitLevelSentence
  by_cases ho : occursIn ['.', ' '] s = true
  · rw [if_pos ho]
    exact splitLongs_spec cs ov _ _ [] (by simp)
      (fun u _ _ => splitLevelWord_spec cs ov h2 u)
  · rw [if_neg ho]
    exact splitLevelWord_spec cs ov h2 s

theorem splitLevelLine_spec (cs ov : Nat) (h2 : 2 ≤ cs) (s : Str) :
    ∀ p ∈ splitLevelLine cs ov s, SNE p ∧ p.length ≤ cs := by
  unfold splitLevelLine
  by_cases ho : occursIn ['\n'] s = true
  · rw [if_pos ho]
    exact splitLongs_spec cs ov _ _ [] (by simp)
      (fun u _ _ => splitLevelSentence_spec cs ov h2 u)
  · rw [if_neg ho]
    exact splitLevelSentence_spec cs ov h2 s

theorem recursiveSplit_spec (cs ov : Nat) (h2 : 2 ≤ cs) (s : Str) :
    ∀ p ∈ recursiveSplit cs ov s, SNE p ∧ p.length ≤ cs := by
  unfold recursiveSplit
  by_cases ho : occursIn ['\n', '\n'] s = true
  · rw [if_pos ho]
    exact splitLongs_spec cs ov _ _ [] (by simp)
      (fun u _ _ => splitLevelLine_spec cs ov h2 u)
  · rw [if_neg ho]
    exact splitLevelLine_spec cs ov h2 s

/-! ### The chunker invariant: stored contents are stripped and nonempty,
token counts recomputed from the stored content -/

theorem snd_mem_of_mem_enumFrom :
    ∀ (l : List Str) (n : Nat) (p : Nat × Str), p ∈ l.enumFrom n → p.2 ∈ l
  | [], _, p, h => by simp at h
  | a :: t, n, p, h => by
    rw [List.enumFrom_cons] at h
    rcases List.mem_cons.mp h with h | h
    · subst h; simp
    · exact List.mem_cons_of_mem a (snd_mem_of_mem_enumFrom t (n + 1) p h)

theorem secondaryChunks_good (meta : SegMeta) (content : Str) :
    ∀ c ∈ secondaryChunks meta content, GoodChunk c := by
  intro c hc
  unfold secondaryChunks at hc
  rcases List.mem_filterMap.mp hc with ⟨p, hp, hf⟩
  by_cases ho : isOrphanChunk p.2 = true
  · simp [ho] at hf
  · rw [if_neg (by simpa using ho)] at hf
    have hmem : p.2 ∈ recursiveSplit SECONDARY_CHUNK_SIZE SECONDARY_CHUNK_OVERLAP content :=
      snd_mem_of_mem_enumFrom _ 0 p hp
    obtain ⟨hsne, _⟩ := recursiveSplit_spec SECONDARY_CHUNK_SIZE SECONDARY_CHUNK_OVERLAP
      (by norm_num [SECONDARY_CHUNK_SIZE]) content p.2 hmem
    cases hf
    refine ⟨?_, ?_, ?_⟩
    · simpa [hsne.2] using hsne.1
    · simp [hsne.2, strip_idem]
    · simp [hsne.2]

theorem preliminary_good (text : Str) : ∀ c ∈ preliminaryChunks text, GoodChunk c := by
  intro c hc
  unfold preliminaryChunks at hc
  rcases List.mem_flatMap.mp hc with ⟨seg, hseg, hcin⟩
  have hsne : SNE seg.1 := headerSplit_SNE (cleanText text) seg hseg
  by_cases hbig : MAX_CHUNK_TOKENS < countTokens seg.1
  · rw [if_pos hbig] at hcin
    exact secondaryChunks_good seg.2 seg.1 c hcin
  · rw [if_neg hbig] at hcin
    simp only [List.mem_singleton] at hcin
    subst hcin
    refine ⟨?_, ?_, ?_⟩
    · simpa [hsne.2] using hsne.1
    · simp [hsne.2, strip_idem]
    · simp [hsne.2]

/-! ### The orphan-merge pass and its fixed point -/

theorem merged_content_stripped {a b : Chunk} (ha : GoodChunk a) (hb : GoodChunk b) :
    strip (a.content ++ nn ++ b.content) = a.content ++ nn ++ b.content := by
  apply strip_eq_self_iff.mpr
  have hha : HeadNotWs a.content := (strip_eq_self_iff.mp ha.2.1).1
  have hlb : LastNotWs b.content := (strip_eq_self_iff.mp hb.2.1).2
  constructor
  · intro c hc
    rw [List.append_assoc, List.head?_append] at hc
    cases hh : a.content.head? with
    | some d =>
      rw [hh] at hc; simp at hc; subst hc
      exact hha d hh
    | none => exact absurd (List.head?_eq_none_iff.mp hh) ha.1
  · intro c hc
    rw [List.append_assoc, List.getLast?_append] at hc
    have : (nn ++ b.content).getLast? = b.content.getLast? := by
      rw [List.getLast?_append]
      cases hg : b.content.getLast? with
      | some d => simp
      | none => exact absurd (List.getLast?_eq_none_iff.mp hg) hb.1
    rw [this] at hc
    cases hg : b.content.getLast? with
    | some d =>
      rw [hg] at hc; simp at hc; subst hc
      exact hlb d hg
    | none => exact absurd (List.getLast?_eq_none_iff.mp hg) hb.1

theorem mergeChunks_good {a b : Chunk} (ha : GoodChunk a) (hb : GoodChunk b) :
    GoodChunk (mergeChunks a b) ∧
      (mergeChunks a b).content.length = a.content.length + b.content.length + 2 := by
  have hs := merged_content_stripped ha hb
  unfold mergeChunks
  refine ⟨⟨?_, ?_, ?_⟩, ?_⟩
  · show strip (a.content ++ nn ++ b.content) ≠ []
    rw [hs]
    simp [nn]
  · exact strip_idem _
  · show countTokens (a.content ++ nn ++ b.content) =
      countTokens (strip (a.content ++ nn ++ b.content))
    rw [hs]
  · show (strip (a.content ++ nn ++ b.content)).length = _
    rw [hs]
    simp [nn]
    omega

theorem orphanPass_ne_nil {cs : List Chunk} (h : cs ≠ []) : (orphanPass cs).1 ≠ [] := by
  match cs with
  | [] => exact absurd rfl h
  | [c] => simp [orphanPass]
  | a :: b :: rest =>
    rw [orphanPass]
    by_cases hc : a.token_count < ORPHAN_CHUNK_MIN_TOKENS
    · rw [if_pos hc]; simp
    · rw [if_neg hc]; simp

theorem orphanPass_good :
    ∀ cs : List Chunk, (∀ c ∈ cs, GoodChunk c) →
      ∀ c ∈ (orphanPass cs).1, GoodChunk c
  | [], _, c, hc => by simp [orphanPass] at hc
  | [d], hall, c, hc => by
    simp only [orphanPass, List.mem_singleton] at hc
    subst hc
    exact hall c (by simp)
  | a :: b :: rest, hall, c, hc => by
    rw [orphanPass] at hc
    by_cases hor : a.token_count < ORPHAN_CHUNK_MIN_TOKENS
    · rw [if_pos hor] at hc
      rcases List.mem_cons.mp hc with h | h
      · subst h
        exact (mergeChunks_good (hall a (by simp)) (hall b (by simp))).1
      · exact orphanPass_good rest (fun d hd => hall d (by simp [hd])) c h
    · rw [if_neg hor] at hc
      rcases List.mem_cons.mp hc with h | h
      · subst h
        exact hall c (by simp)
      · exact orphanPass_good (b :: rest) (fun d hd => hall d (by simp [hd])) c h

theorem dropLast_cons_cons (a b : Chunk) (l : List Chunk) :
    (a :: b :: l).dropLast = a :: (b :: l).dropLast := rfl

theorem orphanPass_eq_of_no_orphan :
    ∀ cs : List Chunk,
      (∀ c ∈ cs.dropLast, ORPHAN_CHUNK_MIN_TOKENS ≤ c.token_count) →
      orphanPass cs = (cs, false)
  | [], _ => rfl
  | [c], _ => rfl
  | a :: b :: rest, h => by
    have ha : ORPHAN_CHUNK_MIN_TOKENS ≤ a.token_count := by
      apply h
      rw [dropLast_cons_cons]
      simp
    rw [orphanPass, if_neg (by omega)]
    have ih := orphanPass_eq_of_no_orphan (b :: rest) (by
      intro c hc
      apply h
      rw [dropLast_cons_cons]
      exact List.mem_cons_of_mem a hc)
    rw [ih]

theorem orphanPass_flag_false_no_orphan :
    ∀ cs : List Chunk, (orphanPass cs).2 = false →
      ∀ c ∈ cs.dropLast, ORPHAN_CHUNK_MIN_TOKENS ≤ c.token_count
  | [], _, c, hc => by simp at hc
  | [d], _, c, hc => by simp at hc
  | a :: b :: rest, hf, c, hc => by
    rw [orphanPass] at hf
    by_cases hor : a.token_count < ORPHAN_CHUNK_MIN_TOKENS
    · rw [if_pos hor] at hf
      simp at hf
    · rw [if_neg hor] at hf
      rw [dropLast_cons_cons] at hc
      rcases List.mem_cons.mp hc with h | h
      · subst h; omega
      · exact orphanPass_flag_false_no_orphan (b :: rest) (by simpa using hf) c h

theorem good_orphan_iff {c : Chunk} (h : GoodChunk c) :
    c.token_count < ORPHAN_CHUNK_MIN_TOKENS ↔ c.content.length < 100 := by
  rw [h.2.2]
  unfold countTokens ORPHAN_CHUNK_MIN_TOKENS
  omega

theorem orphanPass_growth :
    ∀ (cs : List Chunk) (k : Nat), (∀ c ∈ cs, GoodChunk c) → MinOrphan k cs →
      MinOrphan (2 * k + 2) (orphanPass cs).1
  | [], k, _, _ => by
    intro c hc
    simp [orphanPass] at hc
  | [d], k, _, _ => by
    intro c hc
    simp [orphanPass] at hc
  | a :: b :: rest, k, hgood, hmin => by
    have hga : GoodChunk a := hgood a (by simp)
    have hgb : GoodChunk b := hgood b (by simp)
    rw [orphanPass]
    by_cases hor : a.token_count < ORPHAN_CHUNK_MIN_TOKENS
    · rw [if_pos hor]
      intro c hc hcor
      simp only at hc
      have hgrest : ∀ d ∈ rest, GoodChunk d := fun d hd => hgood d (by simp [hd])
      have hmrest : MinOrphan k rest := by
        intro d hd hdor
        apply hmin d _ hdor
        rw [dropLast_cons_cons]
        refine List.mem_cons_of_mem a ?_
        cases rest with
        | nil => simp at hd
        | cons x xs =>
          rw [dropLast_cons_cons]
          exact List.mem_cons_of_mem b hd
      cases hrest : (orphanPass rest).1 with
      | nil =>
        rw [hrest] at hc
        simp at hc
      | cons t ts =>
        rw [hrest] at hc
        rw [List.dropLast_cons₂] at hc
        rcases List.mem_cons.mp hc with h | h
        · subst h
          have hrne : rest ≠ [] := by
            intro he
            subst he
            simp [orphanPass] at hrest
          have hbnl : b ∈ (a :: b :: rest).dropLast := by
            rw [dropLast_cons_cons]
            refine List.mem_cons_of_mem a ?_
            cases rest with
            | nil => exact absurd rfl hrne
            | cons x xs =>
              rw [dropLast_cons_cons]
              simp
          have hanl : a ∈ (a :: b :: rest).dropLast := by
            rw [dropLast_cons_cons]; simp
          have hka : k ≤ a.content.length := hmin a hanl hor
          obtain ⟨hgm, hlen⟩ := mergeChunks_good hga hgb
          by_cases hbor : b.token_count < ORPHAN_CHUNK_MIN_TOKENS
          · have hkb : k ≤ b.content.length := hmin b hbnl hbor
            rw [hlen]
            omega
          · have hb100 : 100 ≤ b.content.length := by
              have := (good_orphan_iff hgb).not.mp hbor
              omega
            have : ¬((mergeChunks a b).token_count < ORPHAN_CHUNK_MIN_TOKENS) := by
              rw [good_orphan_iff hgm, hlen]
              omega
            exact absurd hcor this
        · have := orphanPass_growth rest k hgrest hmrest
          apply this c _ hcor
          rw [hrest]
          exact h
    · rw [if_neg hor]
      intro c hc hcor
      simp only at hc
      have hgbr : ∀ d ∈ b :: rest, GoodChunk d := fun d hd => hgood d (by simp [hd])
      have hmbr : MinOrphan k (b :: rest) := by
        intro d hd hdor
        apply hmin d _ hdor
        rw [dropLast_cons_cons]
        exact List.mem_cons_of_mem a hd
      cases hbr : (orphanPass (b :: rest)).1 with
      | nil => exact absurd hbr (orphanPass_ne_nil (by simp))
      | cons t ts =>
        rw [hbr] at hc
        rw [List.dropLast_cons₂] at hc
        rcases List.mem_cons.mp hc with h | h
        · subst h
          exact absurd hcor hor
        · have := orphanPass_growth (b :: rest) k hgbr hmbr
          apply this c _ hcor
          rw [hbr]
          exact h

theorem orphanLoop_good :
    ∀ (n : Nat) (cs : List Chunk), (∀ c ∈ cs, GoodChunk c) →
      ∀ c ∈ orphanLoop n cs, GoodChunk c
  | 0, cs, hgood => hgood
  | n + 1, cs, hgood => by
    rw [orphanLoop]
    by_cases hf : (orphanPass cs).2 = true
    · rw [if_pos hf]
      exact orphanLoop_good n (orphanPass cs).1 (orphanPass_good cs hgood)
    · rw [if_neg hf]
      exact orphanPass_good cs hgood

theorem orphanLoop_no_orphan :
    ∀ (n : Nat) (cs : List Chunk) (k : Nat),
      (∀ c ∈ cs, GoodChunk c) → MinOrphan k cs → 102 ≤ 2 ^ n * (k + 2) →
      ∀ c ∈ (orphanLoop n cs).dropLast, ORPHAN_CHUNK_MIN_TOKENS ≤ c.token_count
  | 0, cs, k, hgood, hmin, hbound, c, hc => by
    rw [orphanLoop] at hc
    by_contra hlt
    push_neg at hlt
    have hk : k ≤ c.content.length := hmin c hc hlt
    have hgc : GoodChunk c := hgood c (List.dropLast_sublist cs |>.mem hc)
    have := (good_orphan_iff hgc).mp hlt
    simp at hbound
    omega
  | n + 1, cs, k, hgood, hmin, hbound, c, hc => by
    rw [orphanLoop] at hc
    by_cases hf : (orphanPass cs).2 = true
    · rw [if_pos hf] at hc
      refine orphanLoop_no_orphan n (orphanPass cs).1 (2 * k + 2)
        (orphanPass_good cs hgood) (orphanPass_growth cs k hgood hmin) ?_ c hc
      have : 2 ^ (n + 1) * (k + 2) = 2 ^ n * (2 * k + 2 + 2) := by ring
      omega
    · rw [if_neg hf] at hc
      have hid : orphanPass cs = (cs, false) :=
        orphanPass_eq_of_no_orphan cs (orphanPass_flag_false_no_orphan cs (by simpa using hf))
      rw [hid] at hc
      exact orphanPass_flag_false_no_orphan cs (by simp [hid]) c hc

/-- C1: for every finite input text the orphan-merge pass of
DocumentChunker.chunk terminates within the fixed iteration cap (ten passes
always reach a fixed point), and on the returned list every chunk except
possibly the last has token_count at least ORPHAN_CHUNK_MIN_TOKENS; in
particular no further merge is possible (one more pass would merge
nothing). -/
theorem c1_orphan_merge_fixed_point (text : Str) :
    (∀ c ∈ (chunkDocument text).dropLast, ORPHAN_CHUNK_MIN_TOKENS ≤ c.token_count) ∧
      orphanPass (chunkDocument text) = (chunkDocument text, false) := by
  have hgood := preliminary_good text
  have hmin : MinOrphan 1 (preliminaryChunks text) := by
    intro c hc _
    have hg := hgood c ((List.dropLast_sublist _).mem hc)
    have := List.length_pos.mpr hg.1
    omega
  have hall := orphanLoop_no_orphan 10 (preliminaryChunks text) 1 hgood hmin (by norm_num)
  exact ⟨hall, orphanPass_eq_of_no_orphan (chunkDocument text) hall⟩

/-- C7: every chunk returned by DocumentChunker.chunk carries a token_count
equal to the character length of its stored content divided by four
(integer division); it is recomputed whenever content changes. -/
theorem c7_token_count_from_content (text : Str) :
    ∀ c ∈ chunkDocument text, c.token_count = c.content.length / 4 := by
  intro c hc
  exact (orphanLoop_good 10 _ (preliminary_good text) c hc).2.2

/-! ### Content provenance: every piece of content is a subsequence of the
cleaned text, up to the two-newline joiners of the orphan merge (claim C5) -/

theorem SubLines.refl : ∀ ls : List Str, SubLines ls ls
  | [] => SubLines.nil
  | l :: ls => SubLines.keep (List.Sublist.refl l) (SubLines.refl ls)

theorem SubLines.nil_left : ∀ ls : List Str, SubLines [] ls
  | [] => SubLines.nil
  | l :: ls => SubLines.skip l (SubLines.nil_left ls)

theorem SubLines.append_left {ls₁ ls₂ : List Str} (h : SubLines ls₁ ls₂) :
    ∀ acc : List Str, SubLines (acc ++ ls₁) (acc ++ ls₂)
  | [] => h
  | a :: acc => SubLines.keep (List.Sublist.refl a) (SubLines.append_left h acc)

theorem SubLines.skip_prefix {ls₁ ls₂ : List Str} (h : SubLines ls₁ ls₂) :
    ∀ acc : List Str, SubLines ls₁ (acc ++ ls₂)
  | [] => h
  | a :: acc => SubLines.skip a (SubLines.skip_prefix h acc)

theorem joinNL_sublist_cons (l : Str) (ls : List Str) : joinNL ls <+ joinNL (l :: ls) := by
  cases ls with
  | nil => simp [joinNL]
  | cons x xs =>
    rw [joinNL_cons_cons]
    refine List.Sublist.trans ?_ (List.sublist_append_right l _)
    exact List.sublist_cons_self '\n' (joinNL (x :: xs))

theorem subLines_joinNL {ls₁ ls₂ : List Str} (h : SubLines ls₁ ls₂) :
    joinNL ls₁ <+ joinNL ls₂ := by
  induction h with
  | nil => exact List.Sublist.refl []
  | skip l h ih => exact ih.trans (joinNL_sublist_cons l _)
  | keep hs h ih =>
    rename_i s l ls₁ ls₂
    cases hl1 : ls₁ with
    | nil =>
      cases hl2 : ls₂ with
      | nil => simpa [joinNL] using hs
      | cons y ys =>
        rw [joinNL_cons_cons]
        calc joinNL [s] = s := by simp [joinNL]
          _ <+ l := hs
          _ <+ l ++ '\n' :: joinNL (y :: ys) := List.sublist_append_left l _
    | cons x xs =>
      cases hl2 : ls₂ with
      | nil =>
        subst hl1 hl2
        cases h
      | cons y ys =>
        subst hl1 hl2
        rw [joinNL_cons_cons, joinNL_cons_cons]
        exact hs.append ((List.Sublist.refl ['\n']).append ih)

theorem splitNL_ne_nil (s : Str) : splitNL s ≠ [] := by
  cases s with
  | nil => simp [splitNL]
  | cons c cs =>
    rw [splitNL]
    by_cases hc : c = '\n'
    · simp [hc]
    · rw [if_neg hc]
      cases h : splitNL cs <;> simp

theorem joinNL_splitNL (s : Str) : joinNL (splitNL s) = s := by
  induction s with
  | nil => simp [splitNL, joinNL]
  | cons c cs ih =>
    rw [splitNL]
    by_cases hc : c = '\n'
    · subst hc
      rw [if_pos rfl]
      cases h : splitNL cs with
      | nil => exact absurd h (splitNL_ne_nil cs)
      | cons p ps =>
        rw [joinNL_cons_cons]
        simp only [List.nil_append]
        rw [← h, ih]
    · rw [if_neg hc]
      cases h : splitNL cs with
      | nil => exact absurd h (splitNL_ne_nil cs)
      | cons p ps =>
        rw [h] at ih
        cases ps with
        | nil =>
          simp only [joinNL] at ih ⊢
          rw [ih]
        | cons q qs =>
          rw [joinNL_cons_cons] at ih ⊢
          rw [List.cons_append]
          rw [ih]

theorem SubLines.append_nil_right (ls ts : List Str) : SubLines ls (ls ++ ts) := by
  have := SubLines.append_left (SubLines.nil_left ts) ls
  simpa using this

theorem headerSplitGo_sublist :
    ∀ (lines : List Str) (meta : SegMeta) (acc : List Str),
      ∀ seg ∈ headerSplitGo meta acc lines, seg.1 <+ joinNL (acc ++ lines)
  | [], meta, acc, seg, hseg => by
    by_cases hac : acc.isEmpty
    · simp [headerSplitGo, hac] at hseg
    · simp only [headerSplitGo, hac, Bool.false_eq_true, if_false,
        List.mem_singleton] at hseg
      subst hseg
      simp
  | line :: rest, meta, acc, seg, hseg => by
    rw [headerSplitGo] at hseg
    have hstl : strip line <+ line := strip_sublist line
    have hemit : joinNL acc <+ joinNL (acc ++ line :: rest) :=
      subLines_joinNL (SubLines.append_nil_right acc (line :: rest))
    have hrec : ∀ s2, s2 <+ joinNL (strip line :: rest) →
        s2 <+ joinNL (acc ++ line :: rest) := by
      intro s2 hs2
      refine hs2.trans (subLines_joinNL ?_)
      exact SubLines.skip_prefix (SubLines.keep hstl (SubLines.refl rest)) acc
    have hmid : joinNL (acc ++ strip line :: rest) <+ joinNL (acc ++ line :: rest) :=
      subLines_joinNL (SubLines.append_left (SubLines.keep hstl (SubLines.refl rest)) acc)
    have hemitMem : ∀ s2 ∈ (if acc.isEmpty then ([] : List (Str × SegMeta))
        else [(joinNL acc, meta)]), s2.1 <+ joinNL (acc ++ line :: rest) := by
      intro s2 hs2
      by_cases hac : acc.isEmpty
      · simp [hac] at hs2
      · simp only [hac, Bool.false_eq_true, if_false, List.mem_singleton] at hs2
        subst hs2
        exact hemit
    by_cases hst : (strip line).isEmpty
    · rw [if_pos hst] at hseg
      have ih := headerSplitGo_sublist rest meta acc seg hseg
      refine ih.trans (subLines_joinNL ?_)
      exact SubLines.append_left (SubLines.skip line (SubLines.refl rest)) acc
    · rw [if_neg hst] at hseg
      by_cases h2 : isHeader2 (strip line) = true
      · rw [if_pos h2] at hseg
        rcases List.mem_append.mp hseg with h | h
        · exact hemitMem seg h
        · have ih := headerSplitGo_sublist rest _ [strip line] seg h
          exact hrec seg.1 (by simpa using ih)
      · rw [if_neg h2] at hseg
        by_cases h1 : isHeader1 (strip line) = true
        · rw [if_pos h1] at hseg
          rcases List.mem_append.mp hseg with h | h
          · exact hemitMem seg h
          · have ih := headerSplitGo_sublist rest _ [strip line] seg h
            exact hrec seg.1 (by simpa using ih)
        · rw [if_neg h1] at hseg
          have ih := headerSplitGo_sublist rest meta (acc ++ [strip line]) seg hseg
          rw [List.append_assoc, List.singleton_append] at ih
          exact ih.trans hmid

theorem headerSplit_sublist (text : Str) :
    ∀ seg ∈ headerSplit text, seg.1 <+ text := by
  intro seg hseg
  have := headerSplitGo_sublist (splitNL text) emptyMeta [] seg hseg
  simpa [joinNL_splitNL] using this

theorem splitKeepGo_flatten (sep : Str) :
    ∀ (s : Str) (k : Nat) (cur : Str),
      (splitKeepGo sep s k cur).flatten = cur.reverse ++ s
  | [], k, cur => by
    by_cases hc : cur.isEmpty
    · rw [List.isEmpty_iff] at hc
      simp [splitKeepGo, hc]
    · simp only [splitKeepGo, hc, Bool.false_eq_true, if_false]
      simp
  | c :: cs, k + 1, cur => by
    rw [splitKeepGo, splitKeepGo_flatten sep cs k (c :: cur)]
    simp
  | c :: cs, 0, cur => by
    rw [splitKeepGo]
    by_cases hp : sep.isPrefixOf (c :: cs) = true
    · rw [if_pos hp]
      rw [List.flatten_append, splitKeepGo_flatten sep cs (sep.length - 1) [c]]
      by_cases hc : cur.isEmpty
      · rw [List.isEmpty_iff] at hc
        simp [hc]
      · simp only [hc, Bool.false_eq_true, if_false]
        simp
    · rw [if_neg hp]
      rw [splitKeepGo_flatten sep cs 0 (c :: cur)]
      simp

theorem splitKeep_flatten (sep s : Str) : (splitKeep sep s).flatten = s := by
  rw [splitKeep, splitKeepGo_flatten]
  simp

theorem popWhile_suffix (cs ov uLen : Nat) :
    ∀ l : List Str, popWhile cs ov uLen l <:+ l
  | [] => by simp [popWhile]
  | u :: rest => by
    rw [popWhile]
    by_cases hc : (decide (ov < sumLen (u :: rest)) ||
        (decide (cs < sumLen (u :: rest) + uLen) && decide (0 < sumLen (u :: rest)))) = true
    · rw [if_pos hc]
      exact (popWhile_suffix cs ov uLen rest).trans (List.suffix_cons u rest)
    · rw [if_neg hc]

theorem flatten_suffix {l₁ l₂ : List Str} (h : l₁ <:+ l₂) :
    l₁.flatten <:+ l₂.flatten := by
  obtain ⟨t, rfl⟩ := h
  rw [List.flatten_append]
  exact List.suffix_append _ _

theorem mergeGo_sublist (cs ov : Nat) :
    ∀ (us cur : List Str), ∀ p ∈ mergeGo cs ov us cur,
      p <+ cur.flatten ++ us.flatten
  | [], cur, p, hp => by
    simp only [mergeGo] at hp
    cases hj : joinDocs cur with
    | none => simp [hj] at hp
    | some q =>
      rw [hj] at hp
      simp at hp
      subst hp
      unfold joinDocs at hj
      by_cases he : (strip cur.flatten).isEmpty
      · simp [he] at hj
      · simp only [he, Bool.false_eq_true, if_false, Option.some.injEq] at hj
        subst hj
        simpa using strip_sublist cur.flatten
  | u :: us, cur, p, hp => by
    rw [mergeGo] at hp
    have hflat : (popWhile cs ov u.length cur ++ [u]).flatten ++ us.flatten
        <+ cur.flatten ++ (u :: us).flatten := by
      rw [List.flatten_append]
      have h1 : (popWhile cs ov u.length cur).flatten <+ cur.flatten :=
        (flatten_suffix (popWhile_suffix cs ov u.length cur)).sublist
      calc (popWhile cs ov u.length cur).flatten ++ [u].flatten ++ us.flatten
          = (popWhile cs ov u.length cur).flatten ++ (u ++ us.flatten) := by simp
        _ <+ cur.flatten ++ (u ++ us.flatten) := h1.append (List.Sublist.refl _)
        _ = cur.flatten ++ (u :: us).flatten := by simp
    by_cases hfire : (decide (cs < sumLen cur + u.length) && !cur.isEmpty) = true
    · rw [if_pos hfire] at hp
      rcases List.mem_append.mp hp with h | h
      · cases hj : joinDocs cur with
        | none => simp [hj] at h
        | some q =>
          rw [hj] at h
          simp at h
          subst h
          unfold joinDocs at hj
          by_cases he : (strip cur.flatten).isEmpty
          · simp [he] at hj
          · simp only [he, Bool.false_eq_true, if_false, Option.some.injEq] at hj
            subst hj
            exact (strip_sublist cur.flatten).trans (List.sublist_append_left _ _)
      · have ih := mergeGo_sublist cs ov us (popWhile cs ov u.length cur ++ [u]) p h
        exact ih.trans hflat
    · rw [if_neg hfire] at hp
      have ih := mergeGo_sublist cs ov us (cur ++ [u]) p hp
      refine ih.trans ?_
      rw [List.flatten_append]
      simp

theorem splitLongs_sublist (cs ov : Nat) (next : Str → List Str) :
    ∀ (us good : List Str),
      (∀ u ∈ us, ∀ p ∈ next u, p <+ u) →
      ∀ p ∈ splitLongs cs ov next us good, p <+ good.flatten ++ us.flatten
  | [], good, _, p, hp => by
    rw [splitLongs] at hp
    have := mergeGo_sublist cs ov good [] p (by simpa [mergeUnits] using hp)
    simpa using this
  | u :: us, good, hnext, p, hp => by
    rw [splitLongs] at hp
    by_cases hu : (decide (u.length < cs)) = true
    · rw [if_pos hu] at hp
      have ih := splitLongs_sublist cs ov next us (good ++ [u])
        (fun v hv => hnext v (by simp [hv])) p hp
      refine ih.trans ?_
      rw [List.flatten_append]
      simp
    · rw [if_neg hu] at hp
      rcases List.mem_append.mp hp with h | h
      · rcases List.mem_append.mp h with h2 | h2
        · have := mergeGo_sublist cs ov good [] p (by simpa [mergeUnits] using h2)
          simp only [List.flatten_nil, List.append_nil] at this
          exact this.trans (List.sublist_append_left _ _)
        · have := hnext u (by simp) p h2
          refine this.trans ?_
          refine List.Sublist.trans ?_ (List.sublist_append_right good.flatten _)
          simp only [List.flatten_cons]
          exact List.sublist_append_left u us.flatten
      · have ih := splitLongs_sublist cs ov next us []
          (fun v hv => hnext v (by simp [hv])) p h
        simp only [List.flatten_nil, List.nil_append] at ih
        refine ih.trans ?_
        refine List.Sublist.trans ?_ (List.sublist_append_right good.flatten _)
        simp only [List.flatten_cons]
        exact List.sublist_append_right u us.flatten

theorem flatten_map_singleton (s : Str) : (s.map (fun c => [c])).flatten = s := by
  induction s with
  | nil => simp
  | cons c cs ih => simp [ih]

theorem splitLevelChar_sublist (cs ov : Nat) (s : Str) :
    ∀ p ∈ splitLevelChar cs ov s, p <+ s := by
  intro p hp
  have := splitLongs_sublist cs ov (fun u => [u]) (s.map (fun c => [c])) []
    (by
      intro u hu q hq
      simp only [List.mem_singleton] at hq
      subst hq
      exact List.Sublist.refl _) p hp
  simpa [flatten_map_singleton] using this

theorem splitLevelWord_sublist (cs ov : Nat) (s : Str) :
    ∀ p ∈ splitLevelWord cs ov s, p <+ s := by
  unfold splitLevelWord
  by_cases ho : occursIn [' '] s = true
  · rw [if_pos ho]
    intro p hp
    have := splitLongs_sublist cs ov (splitLevelChar cs ov) (splitKeep [' '] s) []
      (fun u _ q hq => splitLevelChar_sublist cs ov u q hq) p hp
    simpa [splitKeep_flatten] using this
  · rw [if_neg ho]
    exact splitLevelChar_sublist cs ov s

theorem splitLevelSentence_sublist (cs ov : Nat) (s : Str) :
    ∀ p ∈ splitLevelSentence cs ov s, p <+ s := by
  unfold splitLevelSentence
  by_cases ho : occursIn ['.', ' '] s = true
  · rw [if_pos ho]
    intro p hp
    have := splitLongs_sublist cs ov (splitLevelWord cs ov) (splitKeep ['.', ' '] s) []
      (fun u _ q hq => splitLevelWord_sublist cs ov u q hq) p hp
    simpa [splitKeep_flatten] using this
  · rw [if_neg ho]
    exact splitLevelWord_sublist cs ov s

theorem splitLevelLine_sublist (cs ov : Nat) (s : Str) :
    ∀ p ∈ splitLevelLine cs ov s, p <+ s := by
  unfold splitLevelLine
  by_cases ho : occursIn ['\n'] s = true
  · rw [if_pos ho]
    intro p hp
    have := splitLongs_sublist cs ov (splitLevelSentence cs ov) (splitKeep ['\n'] s) []
      (fun u _ q hq => splitLevelSentence_sublist cs ov u q hq) p hp
    simpa [splitKeep_flatten] using this
  · rw [if_neg ho]
    exact splitLevelSentence_sublist cs ov s

theorem recursiveSplit_sublist (cs ov : Nat) (s : Str) :
    ∀ p ∈ recursiveSplit cs ov s, p <+ s := by
  unfold recursiveSplit
  by_cases ho : occursIn ['\n', '\n'] s = true
  · rw [if_pos ho]
    intro p hp
    have := splitLongs_sublist cs ov (splitLevelLine cs ov) (splitKeep ['\n', '\n'] s) []
      (fun u _ q hq => splitLevelLine_sublist cs ov u q hq) p hp
    simpa [splitKeep_flatten] using this
  · rw [if_neg ho]
    exact splitLevelLine_sublist cs ov s

theorem preliminary_sublist (text : Str) :
    ∀ c ∈ preliminaryChunks text, c.content <+ cleanText text := by
  intro c hc
  unfold preliminaryChunks at hc
  rcases List.mem_flatMap.mp hc with ⟨seg, hseg, hcin⟩
  have hsegsub : seg.1 <+ cleanText text := headerSplit_sublist (cleanText text) seg hseg
  by_cases hbig : MAX_CHUNK_TOKENS < countTokens seg.1
  · rw [if_pos hbig] at hcin
    unfold secondaryChunks at hcin
    rcases List.mem_filterMap.mp hcin with ⟨p, hp, hf⟩
    by_cases ho : isOrphanChunk p.2 = true
    · simp [ho] at hf
    · rw [if_neg (by simpa using ho)] at hf
      cases hf
      have hpin : p.2 ∈ recursiveSplit SECONDARY_CHUNK_SIZE SECONDARY_CHUNK_OVERLAP seg.1 :=
        snd_mem_of_mem_enumFrom _ 0 p hp
      have := recursiveSplit_sublist SECONDARY_CHUNK_SIZE SECONDARY_CHUNK_OVERLAP seg.1 p.2 hpin
      exact ((strip_sublist p.2).trans this).trans hsegsub
  · rw [if_neg hbig] at hcin
    simp only [List.mem_singleton] at hcin
    subst hcin
    exact (strip_sublist seg.1).trans hsegsub

theorem orphanPass_good_pieced (base : Str → Prop) :
    ∀ cs : List Chunk,
      (∀ c ∈ cs, GoodChunk c ∧ PiecedFrom base c.content) →
      ∀ c ∈ (orphanPass cs).1, GoodChunk c ∧ PiecedFrom base c.content
  | [], _, c, hc => by simp [orphanPass] at hc
  | [d], hall, c, hc => by
    simp only [orphanPass, List.mem_singleton] at hc
    subst hc
    exact hall c (by simp)
  | a :: b :: rest, hall, c, hc => by
    rw [orphanPass] at hc
    have hga := hall a (by simp)
    have hgb := hall b (by simp)
    by_cases hor : a.token_count < ORPHAN_CHUNK_MIN_TOKENS
    · rw [if_pos hor] at hc
      rcases List.mem_cons.mp hc with h | h
      · subst h
        refine ⟨(mergeChunks_good hga.1 hgb.1).1, ?_⟩
        have hs := merged_content_stripped hga.1 hgb.1
        show PiecedFrom base (mergeChunks a b).content
        unfold mergeChunks
        simp only [hs]
        exact PiecedFrom.joined hga.2 hgb.2
      · exact orphanPass_good_pieced base rest (fun d hd => hall d (by simp [hd])) c h
    · rw [if_neg hor] at hc
      rcases List.mem_cons.mp hc with h | h
      · subst h
        exact hall c (by simp)
      · exact orphanPass_good_pieced base (b :: rest) (fun d hd => hall d (by simp [hd])) c h

theorem orphanLoop_good_pieced (base : Str → Prop) :
    ∀ (n : Nat) (cs : List Chunk),
      (∀ c ∈ cs, GoodChunk c ∧ PiecedFrom base c.content) →
      ∀ c ∈ orphanLoop n cs, GoodChunk c ∧ PiecedFrom base c.content
  | 0, cs, hall => hall
  | n + 1, cs, hall => by
    rw [orphanLoop]
    by_cases hf : (orphanPass cs).2 = true
    · rw [if_pos hf]
      exact orphanLoop_good_pieced base n (orphanPass cs).1 (orphanPass_good_pieced base cs hall)
    · rw [if_neg hf]
      exact orphanPass_good_pieced base cs hall

/-- C5 (amended): every chunk content returned by DocumentChunker.chunk is
pieced from subsequences of the normalized input: it is either itself a
subsequence of the cleaned text, or the join of two pieced contents with the
two-newline separator fabricated by the orphan merge.  (As stated, the claim
fails: the fabricated joiner makes the concatenation leave the subsequence
order; see the counterexample.) -/
theorem c5_content_pieced_from_clean (text : Str) :
    ∀ c ∈ chunkDocument text, PiecedFrom (fun s => s <+ cleanText text) c.content := by
  intro c hc
  refine (orphanLoop_good_pieced _ 10 (preliminaryChunks text) ?_ c hc).2
  intro d hd
  exact ⟨preliminary_good text d hd, PiecedFrom.ofBase (preliminary_sublist text d hd)⟩

set_option maxRecDepth 40000 in
/-- C5 (counterexample): for this concrete input, the concatenation of the
contents of the returned chunks is not a subsequence of the normalized
(cleaned) input text, contradicting the claim as stated. -/
theorem c5_counterexample :
    ¬ ((chunkDocument c5Text).flatMap (fun c => c.content) <+ cleanText c5Text) := by
  decide

/-! ### Claim C8: normalization with no TOC marker -/

theorem tocSectionGo_id_of_no_marker :
    ∀ s : Str, hasTocSectionMarker s = false → tocSectionGo s 0 = s
  | [], _ => rfl
  | c :: cs, h => by
    rw [hasTocSectionMarker] at h
    simp only [Bool.or_eq_false_iff] at h
    rw [tocSectionGo]
    cases hl : tocSectionLen (c :: cs) with
    | some n =>
      rw [hl] at h
      simp at h
    | none =>
      rw [tocSectionGo_id_of_no_marker cs h.2]

theorem tocEntryGo_id_of_no_marker :
    ∀ (s : Str) (atStart : Bool), hasTocEntryMarkerGo s atStart = false →
      tocEntryGo s 0 atStart = s
  | [], _, _ => rfl
  | c :: cs, atStart, h => by
    rw [hasTocEntryMarkerGo] at h
    simp only [Bool.or_eq_false_iff, Bool.and_eq_false_iff] at h
    rw [tocEntryGo]
    cases hat : atStart with
    | false =>
      rw [if_neg (by simp)]
      rw [tocEntryGo_id_of_no_marker cs (c = '\n') h.2]
    | true =>
      rw [if_pos rfl]
      cases hl : tocEntryLen (c :: cs) with
      | some n =>
        rcases h.1 with h1 | h1
        · subst hat; simp at h1
        · rw [hl] at h1; simp at h1
      | none =>
        rw [tocEntryGo_id_of_no_marker cs (c = '\n') h.2]

/-- C8 (amended): when the input contains no table-of-contents marker, the
two TOC-removal steps leave the text unchanged, and _clean_text reduces to
boilerplate-line filtering, blank-run collapsing and the final strip — which
may still change the text, so the normalization is not the identity. -/
theorem c8_no_marker_toc_steps_identity (text : Str)
    (h1 : hasTocSectionMarker text = false) (h2 : hasTocEntryMarker text = false) :
    tocSectionSub text = text ∧ tocEntrySub text = text ∧
      cleanText text =
        strip (collapseNL (joinNL ((splitNL text).filter (fun l => !isBoilerplateLine l)))) := by
  have e1 : tocSectionSub text = text := tocSectionGo_id_of_no_marker text h1
  have e2 : tocEntrySub text = text := tocEntryGo_id_of_no_marker text true h2
  refine ⟨e1, e2, ?_⟩
  unfold cleanText
  simp only []
  rw [e1, e2]

/-- C8 (witness): a concrete no-marker input on which the amended theorem
applies. -/
theorem c8_no_marker_witness :
    tocSectionSub (S "hello world") = S "hello world" ∧
      tocEntrySub (S "hello world") = S "hello world" ∧
      cleanText (S "hello world") =
        strip (collapseNL (joinNL ((splitNL (S "hello world")).filter
          (fun l => !isBoilerplateLine l)))) :=
  c8_no_marker_toc_steps_identity (S "hello world") (by decide) (by decide)

/-- C8 (counterexample): an input with no TOC marker that _clean_text does
not return unchanged, contradicting the claim as stated. -/
theorem c8_counterexample :
    hasTocSectionMarker c8Text = false ∧ hasTocEntryMarker c8Text = false ∧
      cleanText c8Text ≠ c8Text := by
  decide

/-- C9: ChunkEnricher.enrich_chunk never raises: it is total over every
provider outcome, preserves content, metadata, token count, chunk index and
source fields, and on any provider or parsing exception returns the chunk
with all enrichment fields at their empty defaults. -/
theorem c9_enrich_chunk_total_and_fallback
    (content : Str) (metadata : SegMeta) (token_count chunk_index : Nat)
    (source_document : Str) (char_start char_end : Nat) (page_numbers : List Nat) :
    (∀ resp : Except Str Str,
      (enrichChunkLLM content metadata token_count chunk_index source_document
          char_start char_end page_numbers resp).content = content ∧
      (enrichChunkLLM content metadata token_count chunk_index source_document
          char_start char_end page_numbers resp).original_metadata = metadata ∧
      (enrichChunkLLM content metadata token_count chunk_index source_document
          char_start char_end page_numbers resp).token_count = token_count ∧
      (enrichChunkLLM content metadata token_count chunk_index source_document
          char_start char_end page_numbers resp).chunk_index = chunk_index ∧
      (enrichChunkLLM content metadata token_count chunk_index source_document
          char_start char_end page_numbers resp).source_document = source_document ∧
      (enrichChunkLLM content metadata token_count chunk_index source_document
          char_start char_end page_numbers resp).source_section =
        metaArticleOrSection metadata ∧
      (enrichChunkLLM content metadata token_count chunk_index source_document
          char_start char_end page_numbers resp).page_numbers = page_numbers) ∧
    (∀ e : Str,
      enrichChunkLLM content metadata token_count chunk_index source_document
          char_start char_end page_numbers (Except.error e) =
        ⟨content, metadata, token_count, chunk_index, source_document,
          metaArticleOrSection metadata, char_start, char_end, page_numbers,
          [], [], [], []⟩) := by
  constructor
  · intro resp
    cases resp with
    | ok t => simp [enrichChunkLLM]
    | error e => simp [enrichChunkLLM]
  · intro e
    simp [enrichChunkLLM]

/-- C4 (amended): any exception in the parse stage or the structured
extraction stage makes run return a failure PipelineResult with success
false, zero chunks and vectors, and error_message equal to the exception
text (present but empty when the exception text is empty, which corrects the
claim of a never-empty message); no later stage is attempted and the failed
stage is not retried: the outcome is unchanged under arbitrary replacement
of every later-stage collaborator, and the run trace stays empty. -/
theorem c4_prestage_failure_aborts :
    (∀ (env : RunEnv) (cfg : PipelineConfig) (fp e : Str),
      env.parseResult = Except.error e →
      (runPipeline env cfg fp).1 = failureResult (basenameOf fp) e ∧
      (runPipeline env cfg fp).2 = emptyTrace ∧
      (∀ env₂ : RunEnv, env₂.parseResult = Except.error e →
        runPipeline env₂ cfg fp = runPipeline env cfg fp)) ∧
    (∀ (env : RunEnv) (cfg : PipelineConfig) (fp fullText e : Str),
      env.parseResult = Except.ok fullText →
      env.extractResult (fullText.take 150000) = Except.error e →
      (runPipeline env cfg fp).1 = failureResult (basenameOf fp) e ∧
      (runPipeline env cfg fp).2 = emptyTrace ∧
      (∀ env₂ : RunEnv, env₂.parseResult = Except.ok fullText →
        env₂.extractResult (fullText.take 150000) = Except.error e →
        runPipeline env₂ cfg fp = runPipeline env cfg fp)) := by
  constructor
  · intro env cfg fp e hp
    have hrun : runPipeline env cfg fp = (failureResult (basenameOf fp) e, emptyTrace) := by
      unfold runPipeline
      rw [hp]
    refine ⟨by rw [hrun], by rw [hrun], ?_⟩
    intro env₂ hp₂
    have hrun₂ : runPipeline env₂ cfg fp = (failureResult (basenameOf fp) e, emptyTrace) := by
      unfold runPipeline
      rw [hp₂]
    rw [hrun, hrun₂]
  · intro env cfg fp fullText e hp hx
    have hrun : runPipeline env cfg fp = (failureResult (basenameOf fp) e, emptyTrace) := by
      unfold runPipeline
      rw [hp]
      simp only []
      rw [hx]
    refine ⟨by rw [hrun], by rw [hrun], ?_⟩
    intro env₂ hp₂ hx₂
    have hrun₂ : runPipeline env₂ cfg fp = (failureResult (basenameOf fp) e, emptyTrace) := by
      unfold runPipeline
      rw [hp₂]
      simp only []
      rw [hx₂]
    rw [hrun, hrun₂]

/-- C4 (witness): concrete parse-failure and extraction-failure runs to
which the theorem applies. -/
theorem c4_prestage_failure_witness :
    (runPipeline c4wEnvParse defaultConfig (S "a/doc.pdf")).1 =
      failureResult (basenameOf (S "a/doc.pdf")) (S "boom") ∧
    (runPipeline c4wEnvExtract defaultConfig (S "a/doc.pdf")).1 =
      failureResult (basenameOf (S "a/doc.pdf")) (S "bad extract") :=
  ⟨(c4_prestage_failure_aborts.1 c4wEnvParse defaultConfig (S "a/doc.pdf")
      (S "boom") rfl).1,
   (c4_prestage_failure_aborts.2 c4wEnvExtract defaultConfig (S "a/doc.pdf")
      (S "d") (S "bad extract") rfl rfl).1⟩

/-- C4 (counterexample): a parse exception whose text is empty yields a
failure result whose error_message is the empty string, so the claimed
always non-empty error_message is refuted at this input. -/
theorem c4_counterexample :
    (runPipeline c4cexEnv defaultConfig (S "x.pdf")).1.success = false ∧
    (runPipeline c4cexEnv defaultConfig (S "x.pdf")).1.error_message = some [] := by
  constructor
  · rfl
  · rfl

/-! ### The embedding stage: alignment and per-batch shape (claims C2, C3,
C10) -/

theorem embedGo_eq_spec (oracle : Nat → Option (List Vec)) (bs : Nat) :
    ∀ (fuel bIdx pos : Nat) (ts : List Str),
      embedGo oracle bs fuel bIdx pos ts =
        (embedVecsSpec oracle (max bs 1) fuel bIdx ts,
         embedIdxSpec oracle (max bs 1) fuel bIdx pos ts)
  | 0, bIdx, pos, ts => by
    cases ts <;> rfl
  | fuel + 1, bIdx, pos, [] => rfl
  | fuel + 1, bIdx, pos, t :: ts => by
    rw [embedGo, embedVecsSpec, embedIdxSpec]
    rw [embedGo_eq_spec oracle bs fuel (bIdx + 1) (pos + ((t :: ts).take (max bs 1)).length)
      ((t :: ts).drop (max bs 1))]
    cases oracle bIdx <;> rfl

theorem embedVecsSpec_length (oracle : Nat → Option (List Vec)) (step : Nat)
    (hstep : 1 ≤ step) :
    ∀ (fuel bIdx : Nat) (ts : List Str), ts.length ≤ fuel →
      (∀ j vs, oracle (bIdx + j) = some vs →
        vs.length = ((ts.drop (j * step)).take step).length) →
      (embedVecsSpec oracle step fuel bIdx ts).length = ts.length
  | 0, bIdx, ts, hf, _ => by
    cases ts with
    | nil => rfl
    | cons t ts2 => simp at hf
  | fuel + 1, bIdx, [], _, _ => rfl
  | fuel + 1, bIdx, t :: ts, hf, halign => by
    rw [embedVecsSpec]
    have hrest : ((t :: ts).drop step).length ≤ fuel := by
      simp only [List.length_drop, List.length_cons] at hf ⊢
      omega
    have halign2 : ∀ j vs, oracle (bIdx + 1 + j) = some vs →
        vs.length = ((((t :: ts).drop step).drop (j * step)).take step).length := by
      intro j vs hv
      have := halign (j + 1) vs (by rw [← hv]; congr 1; omega)
      rw [this]
      congr 2
      rw [List.drop_drop]
      congr 1
      ring
    have ih := embedVecsSpec_length oracle step hstep fuel (bIdx + 1)
      ((t :: ts).drop step) hrest halign2
    rw [List.length_append, ih]
    have hbatch : (match oracle bIdx with
        | some vs => vs
        | none => List.replicate ((t :: ts).take step).length placeholderVec).length =
        ((t :: ts).take step).length := by
      cases ho : oracle bIdx with
      | some vs => simpa using halign 0 vs (by simpa using ho)
      | none => simp
    rw [hbatch]
    simp only [List.length_take, List.length_drop, List.length_cons]
    omega

theorem runPipeline_success_shape (env : RunEnv) (cfg : PipelineConfig)
    (fp fullText : Str) (lease : Lease) (lid : Nat)
    (hp : env.parseResult = Except.ok fullText)
    (hx : env.extractResult (fullText.take 150000) = Except.ok lease)
    (hi : env.insertLease = Except.ok lid) :
    runPipeline env cfg fp =
      (⟨basenameOf fp, true, (chunkDocument fullText).length,
          (vectorsOf env cfg fp fullText lease).length, some lease, none⟩,
       ⟨(embedStage env.embedOracle cfg.embedding_batch_size
            (textsOf env cfg fp fullText)).1,
        (embedStage env.embedOracle cfg.embedding_batch_size
            (textsOf env cfg fp fullText)).2,
        vectorsOf env cfg fp fullText lease,
        upsertStage env.upsertOk 100 (vectorsOf env cfg fp fullText lease)⟩) := by
  unfold runPipeline
  rw [hp]
  simp only []
  rw [hx]
  simp only []
  rw [hi]
  rfl

theorem embStage_length (env : RunEnv) (cfg : PipelineConfig) (fp fullText : Str)
    (halign : EmbAligned env cfg fp fullText) :
    (embedStage env.embedOracle cfg.embedding_batch_size
        (textsOf env cfg fp fullText)).1.length =
      (textsOf env cfg fp fullText).length := by
  unfold embedStage
  rw [embedGo_eq_spec]
  exact embedVecsSpec_length env.embedOracle (max cfg.embedding_batch_size 1)
    (le_max_right _ 1) (textsOf env cfg fp fullText).length 0
    (textsOf env cfg fp fullText) le_rfl (by intro j vs hv; exact halign j vs (by simpa using hv))

/-- C2: every embedding batch whose retries exhaust contributes exactly one
768-dimensional zero-vector placeholder per chunk of the batch and its chunk
index range to the failure record, while non-failed batches contribute the
providerʼs vectors (the per-batch shape equations); under the providerʼs
alignment contract the embedding list keeps the length of the enriched chunk
list, and the run still reaches the upload stage and returns success. -/
theorem c2_embedding_failure_isolation (env : RunEnv) (cfg : PipelineConfig)
    (fp fullText : Str) (lease : Lease) (lid : Nat)
    (hp : env.parseResult = Except.ok fullText)
    (hx : env.extractResult (fullText.take 150000) = Except.ok lease)
    (hi : env.insertLease = Except.ok lid)
    (halign : EmbAligned env cfg fp fullText) :
    (runPipeline env cfg fp).1.success = true ∧
    (runPipeline env cfg fp).2.embeddings.length =
      (enrichedOf env cfg fp fullText).length ∧
    (runPipeline env cfg fp).2.embeddings =
      embedVecsSpec env.embedOracle (max cfg.embedding_batch_size 1)
        (textsOf env cfg fp fullText).length 0 (textsOf env cfg fp fullText) ∧
    (runPipeline env cfg fp).2.failedEmbeddingIndices =
      embedIdxSpec env.embedOracle (max cfg.embedding_batch_size 1)
        (textsOf env cfg fp fullText).length 0 0 (textsOf env cfg fp fullText) := by
  rw [runPipeline_success_shape env cfg fp fullText lease lid hp hx hi]
  refine ⟨rfl, ?_, ?_, ?_⟩
  · show (embedStage env.embedOracle cfg.embedding_batch_size
        (textsOf env cfg fp fullText)).1.length = _
    rw [embStage_length env cfg fp fullText halign]
    simp [textsOf]
  · show (embedStage env.embedOracle cfg.embedding_batch_size
        (textsOf env cfg fp fullText)).1 = _
    unfold embedStage
    rw [embedGo_eq_spec]
  · show (embedStage env.embedOracle cfg.embedding_batch_size
        (textsOf env cfg fp fullText)).2 = _
    unfold embedStage
    rw [embedGo_eq_spec]

/-- C2 (witness): the theorem applied to a concrete run whose only
embedding batch fails permanently. -/
theorem c2_embedding_failure_witness :
    (runPipeline c2wEnv defaultConfig (S "w.pdf")).1.success = true ∧
    (runPipeline c2wEnv defaultConfig (S "w.pdf")).2.embeddings.length =
      (enrichedOf c2wEnv defaultConfig (S "w.pdf") (S "d")).length ∧
    (runPipeline c2wEnv defaultConfig (S "w.pdf")).2.embeddings =
      embedVecsSpec c2wEnv.embedOracle (max defaultConfig.embedding_batch_size 1)
        (textsOf c2wEnv defaultConfig (S "w.pdf") (S "d")).length 0
        (textsOf c2wEnv defaultConfig (S "w.pdf") (S "d")) ∧
    (runPipeline c2wEnv defaultConfig (S "w.pdf")).2.failedEmbeddingIndices =
      embedIdxSpec c2wEnv.embedOracle (max defaultConfig.embedding_batch_size 1)
        (textsOf c2wEnv defaultConfig (S "w.pdf") (S "d")).length 0 0
        (textsOf c2wEnv defaultConfig (S "w.pdf") (S "d")) :=
  c2_embedding_failure_isolation c2wEnv defaultConfig (S "w.pdf") (S "d") wLease 1
    rfl rfl rfl (by intro j vs hv; exact absurd hv (by simp [c2wEnv]))

theorem map_enumFrom_fst {α β : Type} :
    ∀ (l : List α) (k : Nat) (f : Nat → β),
      (l.enumFrom k).map (fun q => f q.1) = (List.range' k l.length).map f
  | [], k, f => rfl
  | a :: t, k, f => by
    rw [List.enumFrom_cons, List.length_cons, List.range', List.map_cons, List.map_cons,
      map_enumFrom_fst t (k + 1) f]

theorem vectorsOf_ids (env : RunEnv) (cfg : PipelineConfig) (fp fullText : Str)
    (lease : Lease) (halign : EmbAligned env cfg fp fullText) :
    (vectorsOf env cfg fp fullText lease).map (fun v => v.id) =
      (List.range (enrichedOf env cfg fp fullText).length).map
        (vectorId (pathStem fp)) := by
  unfold vectorsOf
  rw [List.map_map]
  have : ((fun v : PineVector => v.id) ∘ fun q =>
      (⟨vectorId (pathStem fp) q.1, q.2.2,
        prepareVectorMetadata q.2.1 lease (basenameOf fp)⟩ : PineVector)) =
      fun q : Nat × (EnrichedChunk × Vec) => vectorId (pathStem fp) q.1 := rfl
  rw [this, List.enum, map_enumFrom_fst, List.length_zip,
    embStage_length env cfg fp fullText halign]
  have : (textsOf env cfg fp fullText).length = (enrichedOf env cfg fp fullText).length := by
    simp [textsOf]
  rw [this, Nat.min_self, List.range_eq_range']

/-- C3: every vector id assigned by IngestionPipeline.run is the document
file stem followed by the literal chunk marker and the chunk position, so
the id list of a run is a function of the stem and the enriched-chunk count
alone; two runs on the same file path producing equally many enriched chunks
therefore produce exactly the same ids, and re-ingestion overwrites rather
than duplicates. -/
theorem c3_deterministic_vector_ids (env : RunEnv) (cfg : PipelineConfig)
    (fp fullText : Str) (lease : Lease) (lid : Nat)
    (hp : env.parseResult = Except.ok fullText)
    (hx : env.extractResult (fullText.take 150000) = Except.ok lease)
    (hi : env.insertLease = Except.ok lid)
    (halign : EmbAligned env cfg fp fullText) :
    (runPipeline env cfg fp).2.vectors.map (fun v => v.id) =
      (List.range (enrichedOf env cfg fp fullText).length).map
        (vectorId (pathStem fp)) ∧
    (∀ (env₂ : RunEnv) (cfg₂ : PipelineConfig) (fullText₂ : Str) (lease₂ : Lease)
        (lid₂ : Nat),
      env₂.parseResult = Except.ok fullText₂ →
      env₂.extractResult (fullText₂.take 150000) = Except.ok lease₂ →
      env₂.insertLease = Except.ok lid₂ →
      EmbAligned env₂ cfg₂ fp fullText₂ →
      (enrichedOf env₂ cfg₂ fp fullText₂).length =
        (enrichedOf env cfg fp fullText).length →
      (runPipeline env₂ cfg₂ fp).2.vectors.map (fun v => v.id) =
        (runPipeline env cfg fp).2.vectors.map (fun v => v.id)) := by
  have h1 : (runPipeline env cfg fp).2.vectors.map (fun v => v.id) =
      (List.range (enrichedOf env cfg fp fullText).length).map (vectorId (pathStem fp)) := by
    rw [runPipeline_success_shape env cfg fp fullText lease lid hp hx hi]
    exact vectorsOf_ids env cfg fp fullText lease halign
  refine ⟨h1, ?_⟩
  intro env₂ cfg₂ fullText₂ lease₂ lid₂ hp₂ hx₂ hi₂ halign₂ hlen
  have h2 : (runPipeline env₂ cfg₂ fp).2.vectors.map (fun v => v.id) =
      (List.range (enrichedOf env₂ cfg₂ fp fullText₂).length).map (vectorId (pathStem fp)) := by
    rw [runPipeline_success_shape env₂ cfg₂ fp fullText₂ lease₂ lid₂ hp₂ hx₂ hi₂]
    exact vectorsOf_ids env₂ cfg₂ fp fullText₂ lease₂ halign₂
  rw [h1, h2, hlen]

/-- C3 (witness): the theorem applied to a concrete aligned run. -/
theorem c3_deterministic_vector_ids_witness :
    (runPipeline c3wEnv defaultConfig (S "w.pdf")).2.vectors.map (fun v => v.id) =
      (List.range (enrichedOf c3wEnv defaultConfig (S "w.pdf") (S "d")).length).map
        (vectorId (pathStem (S "w.pdf"))) :=
  (c3_deterministic_vector_ids c3wEnv defaultConfig (S "w.pdf") (S "d") wLease 1
    rfl rfl rfl (by
      intro j vs hv
      by_cases hj : j = 0
      · subst hj
        simp only [c3wEnv] at hv
        simp at hv
        subst hv
        decide
      · exact absurd hv (by simp [c3wEnv, hj]))).1

/-- C10: on every successful run the reported vectors_uploaded equals the
number of enriched chunks (the number of vectors built for upsert), no
matter how many upload batches failed permanently: the failed upload ids are
recorded only in the run trace, and replacing the upload collaborator by any
other leaves the returned PipelineResult unchanged. -/
theorem c10_vectors_uploaded_ignores_upload_failures (env : RunEnv)
    (cfg : PipelineConfig) (fp fullText : Str) (lease : Lease) (lid : Nat)
    (hp : env.parseResult = Except.ok fullText)
    (hx : env.extractResult (fullText.take 150000) = Except.ok lease)
    (hi : env.insertLease = Except.ok lid)
    (halign : EmbAligned env cfg fp fullText) :
    (runPipeline env cfg fp).1.success = true ∧
    (runPipeline env cfg fp).1.vectors_uploaded =
      (enrichedOf env cfg fp fullText).length ∧
    (runPipeline env cfg fp).2.failedVectors =
      upsertStage env.upsertOk 100 (vectorsOf env cfg fp fullText lease) ∧
    (∀ ok₂ : Nat → Bool,
      (runPipeline ⟨env.parseResult, env.extractResult, env.enrichOne, env.embedOracle,
          ok₂, env.insertLease, env.clauseOutcome⟩ cfg fp).1 =
        (runPipeline env cfg fp).1) := by
  have hlen : (vectorsOf env cfg fp fullText lease).length =
      (enrichedOf env cfg fp fullText).length := by
    unfold vectorsOf
    simp only [List.length_map, List.enum_length, List.length_zip,
      embStage_length env cfg fp fullText halign]
    simp [textsOf]
  rw [runPipeline_success_shape env cfg fp fullText lease lid hp hx hi]
  refine ⟨rfl, hlen, rfl, ?_⟩
  intro ok₂
  rw [runPipeline_success_shape
    ⟨env.parseResult, env.extractResult, env.enrichOne, env.embedOracle,
      ok₂, env.insertLease, env.clauseOutcome⟩ cfg fp fullText lease lid hp hx hi]
  rfl

/-- C10 (witness): the theorem applied to a run whose only upload batch
fails permanently. -/
theorem c10_vectors_uploaded_witness :
    (runPipeline c10wEnv defaultConfig (S "w.pdf")).1.success = true ∧
    (runPipeline c10wEnv defaultConfig (S "w.pdf")).1.vectors_uploaded =
      (enrichedOf c10wEnv defaultConfig (S "w.pdf") (S "d")).length :=
  ⟨(c10_vectors_uploaded_ignores_upload_failures c10wEnv defaultConfig (S "w.pdf")
      (S "d") wLease 1 rfl rfl rfl (by
        intro j vs hv
        by_cases hj : j = 0
        · subst hj
          simp only [c10wEnv] at hv
          simp at hv
          subst hv
          decide
        · exact absurd hv (by simp [c10wEnv, hj]))).1,
   (c10_vectors_uploaded_ignores_upload_failures c10wEnv defaultConfig (S "w.pdf")
      (S "d") wLease 1 rfl rfl rfl (by
        intro j vs hv
        by_cases hj : j = 0
        · subst hj
          simp only [c10wEnv] at hv
          simp at hv
          subst hv
          decide
        · exact absurd hv (by simp [c10wEnv, hj]))).2.1⟩

/-! ### Claim C6: the secondary split of one oversized section -/

theorem nn_not_prefix_of_ne {a : Char} (ha : a ≠ '\n') (t : Str) :
    nn.isPrefixOf (a :: t) = false := by
  simp [nn, List.isPrefixOf]
  intro h
  exact absurd h.symm ha

theorem sk_cross :
    ∀ (x y cur : Str), (∀ ch ∈ x, ch ≠ '\n') →
      splitKeepGo nn (x ++ nn ++ y) 0 cur =
        (if (cur.reverse ++ x).isEmpty then [] else [cur.reverse ++ x]) ++
          splitKeepGo nn y 0 ['\n', '\n']
  | [], y, cur, _ => by
    show splitKeepGo nn ('\n' :: '\n' :: y) 0 cur = _
    rw [splitKeepGo]
    rw [if_pos (by simp [nn, List.isPrefixOf])]
    show _ = (if (cur.reverse ++ []).isEmpty then [] else [cur.reverse ++ []]) ++ _
    have h1 : splitKeepGo nn ('\n' :: y) (nn.length - 1) ['\n'] =
        splitKeepGo nn y 0 ['\n', '\n'] := by
      show splitKeepGo nn ('\n' :: y) 1 ['\n'] = _
      rw [splitKeepGo]
    rw [h1]
    by_cases hc : cur.isEmpty
    · rw [List.isEmpty_iff] at hc
      simp [hc]
    · have hne : cur ≠ [] := by simpa [List.isEmpty_iff] using hc
      rw [if_neg (by simpa [List.isEmpty_iff] using hc), if_neg (by simp [hne])]
      simp
  | a :: x2, y, cur, hx => by
    have ha : a ≠ '\n' := hx a (by simp)
    show splitKeepGo nn (a :: (x2 ++ nn ++ y)) 0 cur = _
    rw [splitKeepGo]
    rw [if_neg (by rw [nn_not_prefix_of_ne ha]; simp)]
    rw [sk_cross x2 y (a :: cur) (fun ch hch => hx ch (by simp [hch]))]
    have : (a :: cur).reverse ++ x2 = cur.reverse ++ a :: x2 := by simp
    rw [this]

theorem sk_tail :
    ∀ (z cur : Str), (∀ ch ∈ z, ch ≠ '\n') →
      splitKeepGo nn z 0 cur =
        if (cur.reverse ++ z).isEmpty then [] else [cur.reverse ++ z]
  | [], cur, _ => by
    rw [splitKeepGo]
    by_cases hc : cur.isEmpty
    · rw [List.isEmpty_iff] at hc
      simp [hc]
    · have hne : cur ≠ [] := by simpa [List.isEmpty_iff] using hc
      rw [if_neg (by simpa [List.isEmpty_iff] using hc), if_neg (by simp [hne])]
      simp
  | a :: z2, cur, hz => by
    have ha : a ≠ '\n' := hz a (by simp)
    rw [splitKeepGo]
    rw [if_neg (by rw [nn_not_prefix_of_ne ha]; simp)]
    rw [sk_tail z2 (a :: cur) (fun ch hch => hz ch (by simp [hch]))]
    have : (a :: cur).reverse ++ z2 = cur.reverse ++ a :: z2 := by simp
    rw [this]

theorem splitKeep_joinPP_aux :
    ∀ ps : List Str, ps ≠ [] → (∀ p ∈ ps, ∀ ch ∈ p, ch ≠ '\n') →
      splitKeepGo nn (joinPP ps) 0 ['\n', '\n'] = ps.map (fun q => nn ++ q)
  | [], h, _ => absurd rfl h
  | [p], _, hps => by
    show splitKeepGo nn p 0 ['\n', '\n'] = _
    rw [sk_tail p ['\n', '\n'] (hps p (by simp))]
    rw [if_neg (by simp [nn])]
    rfl
  | p :: q :: ps, _, hps => by
    show splitKeepGo nn (p ++ nn ++ joinPP (q :: ps)) 0 ['\n', '\n'] = _
    rw [sk_cross p (joinPP (q :: ps)) ['\n', '\n'] (hps p (by simp))]
    rw [splitKeep_joinPP_aux (q :: ps) (by simp) (fun r hr => hps r (by simp [hr]))]
    rw [if_neg (by simp [nn])]
    rfl

theorem splitKeep_joinPP (p : Str) (ps : List Str)
    (hp : p ≠ []) (h : ∀ q ∈ p :: ps, ∀ ch ∈ q, ch ≠ '\n') :
    splitKeep nn (joinPP (p :: ps)) = p :: ps.map (fun q => nn ++ q) := by
  cases ps with
  | nil =>
    show splitKeepGo nn p 0 [] = _
    rw [sk_tail p [] (h p (by simp))]
    rw [if_neg (by simp [hp])]
    simp
  | cons q ps2 =>
    show splitKeepGo nn (p ++ nn ++ joinPP (q :: ps2)) 0 [] = _
    rw [sk_cross p (joinPP (q :: ps2)) [] (h p (by simp))]
    rw [splitKeep_joinPP_aux (q :: ps2) (by simp) (fun r hr => h r (by simp [hr]))]
    rw [if_neg (by simp [hp])]
    simp

theorem occursIn_append_of_right (sep : Str) :
    ∀ (x y : Str), occursIn sep y = true → occursIn sep (x ++ y) = true
  | [], y, h => h
  | a :: x2, y, h => by
    rw [List.cons_append, occursIn, occursIn_append_of_right sep x2 y h]
    simp

theorem isPrefixOf_append_self : ∀ (l t : Str), l.isPrefixOf (l ++ t) = true
  | [], t => by rw [List.nil_append, List.isPrefixOf]
  | a :: l2, t => by
    rw [List.cons_append, List.isPrefixOf]
    simp [isPrefixOf_append_self l2 t]

theorem occursIn_of_head_sep {sep y : Str} (h : sep.isPrefixOf y = true)
    (hy : y ≠ []) : occursIn sep y = true := by
  cases y with
  | nil => exact absurd rfl hy
  | cons a t =>
    rw [occursIn, h]
    simp

theorem splitLongs_all_good (cs ov : Nat) (next : Str → List Str) :
    ∀ (us good : List Str), (∀ u ∈ us, u.length < cs) →
      splitLongs cs ov next us good = mergeUnits cs ov (good ++ us)
  | [], good, _ => by rw [splitLongs, List.append_nil]
  | u :: us, good, hus => by
    rw [splitLongs, if_pos (by simp [hus u (by simp)])]
    rw [splitLongs_all_good cs ov next us (good ++ [u]) (fun v hv => hus v (by simp [hv]))]
    rw [List.append_assoc, List.singleton_append]

theorem strip_ws_drop (w x : Str) (hw : ∀ c ∈ w, isPyWs c = true) :
    strip (w ++ x) = strip x := by
  unfold strip
  rw [List.dropWhile_append, if_pos]
  rw [List.isEmpty_iff, List.dropWhile_eq_nil_iff]
  exact hw

theorem mergeGo_chain (cs ov : Nat) :
    ∀ (us : List Str) (u : Str), ov < u.length → (∀ v ∈ us, ov < v.length) →
      List.Chain' (fun a b => cs < a.length + b.length) (u :: us) →
      (∀ v ∈ u :: us, strip v ≠ []) →
      mergeGo cs ov us [u] = (u :: us).map strip
  | [], u, _, _, _, hst => by
    rw [mergeGo]
    have h := hst u (by simp)
    simp [joinDocs, List.isEmpty_iff, h]
  | w :: us2, u, hu, hus, hch, hst => by
    rw [mergeGo]
    have hcw : cs < u.length + w.length := (List.chain'_cons.mp hch).1
    rw [if_pos (by simp [sumLen]; omega)]
    have hpop : popWhile cs ov w.length [u] = [] := by
      rw [popWhile]
      rw [if_pos (by simp [sumLen]; omega)]
      rfl
    rw [hpop, List.nil_append]
    rw [mergeGo_chain cs ov us2 w (hus w (by simp))
      (fun v hv => hus v (by simp [hv])) (List.chain'_cons.mp hch).2
      (fun v hv => hst v (List.mem_cons_of_mem u hv))]
    have h := hst u (by simp)
    simp [joinDocs, List.isEmpty_iff, h]

theorem mergeUnits_chain (cs ov : Nat) (u : Str) (us : List Str)
    (hu : ov < u.length) (hus : ∀ v ∈ us, ov < v.length)
    (hch : List.Chain' (fun a b => cs < a.length + b.length) (u :: us))
    (hst : ∀ v ∈ u :: us, strip v ≠ []) :
    mergeUnits cs ov (u :: us) = (u :: us).map strip := by
  rw [mergeUnits, mergeGo]
  rw [if_neg (by simp)]
  rw [List.nil_append]
  exact mergeGo_chain cs ov us u hu hus hch hst

theorem pairwise_fst_lt_enumFrom :
    ∀ (l : List Str) (k : Nat),
      List.Pairwise (fun p q : Nat × Str => p.1 < q.1) (l.enumFrom k)
  | [], _ => List.Pairwise.nil
  | a :: l, k => by
    rw [List.enumFrom_cons]
    refine List.Pairwise.cons ?_ (pairwise_fst_lt_enumFrom l (k + 1))
    rintro ⟨i, x⟩ hp
    have := (List.mem_enumFrom hp).1
    simpa using this

set_option maxRecDepth 40000 in
theorem scenPara_length : scenPara.length = 498 := by decide

set_option maxRecDepth 40000 in
theorem scenParaLast_length : scenParaLast.length = 500 := by decide

set_option maxRecDepth 40000 in
theorem scenPara_strip : strip scenPara = scenPara := by decide

set_option maxRecDepth 40000 in
theorem scenParaLast_strip : strip scenParaLast = scenParaLast := by decide

set_option maxRecDepth 40000 in
theorem scenPara_not_orphan : isOrphanChunk scenPara = false := by decide

set_option maxRecDepth 40000 in
theorem scenParaLast_not_orphan : isOrphanChunk scenParaLast = false := by decide

set_option maxRecDepth 40000 in
theorem scenPara_no_nl : ∀ ch ∈ scenPara, ch ≠ '\n' := by decide

set_option maxRecDepth 40000 in
theorem scenParaLast_no_nl : ∀ ch ∈ scenParaLast, ch ≠ '\n' := by decide

theorem scenParas_mem {q : Str} (hq : q ∈ scenParas) :
    q = scenPara ∨ q = scenParaLast := by
  simp [scenParas] at hq
  tauto

theorem scenPara_ne_nil : scenPara ≠ [] := by
  intro h
  have := scenPara_length
  rw [h] at this
  simp at this

theorem scenParaLast_ne_nil : scenParaLast ≠ [] := by
  intro h
  have := scenParaLast_length
  rw [h] at this
  simp at this

theorem strip_nn_para : strip (nn ++ scenPara) = scenPara := by
  rw [strip_ws_drop nn scenPara (by decide), scenPara_strip]

theorem strip_nn_paraLast : strip (nn ++ scenParaLast) = scenParaLast := by
  rw [strip_ws_drop nn scenParaLast (by decide), scenParaLast_strip]

theorem recSplit_section5000 :
    recursiveSplit SECONDARY_CHUNK_SIZE SECONDARY_CHUNK_OVERLAP section5000 =
      scenParas := by
  have hrest : section5000 = scenPara ++ nn ++ joinPP
      [scenPara, scenPara, scenPara, scenPara, scenPara, scenPara, scenPara,
       scenPara, scenParaLast] := rfl
  have hys : (nn ++ joinPP [scenPara, scenPara, scenPara, scenPara, scenPara,
      scenPara, scenPara, scenPara, scenParaLast] : Str) ≠ [] := by simp [nn]
  have hocc : occursIn nn section5000 = true := by
    rw [hrest, List.append_assoc]
    exact occursIn_append_of_right nn scenPara _
      (occursIn_of_head_sep (isPrefixOf_append_self nn _) hys)
  have hall : ∀ q ∈ scenParas, ∀ ch ∈ q, ch ≠ '\n' := by
    intro q hq
    rcases scenParas_mem hq with h | h <;> subst h
    · exact scenPara_no_nl
    · exact scenParaLast_no_nl
  have hsplit : splitKeep nn section5000 =
      scenPara :: ([scenPara, scenPara, scenPara, scenPara, scenPara, scenPara,
        scenPara, scenPara, scenParaLast].map (fun q => nn ++ q)) :=
    splitKeep_joinPP scenPara
      [scenPara, scenPara, scenPara, scenPara, scenPara, scenPara, scenPara,
       scenPara, scenParaLast] scenPara_ne_nil hall
  rw [recursiveSplit, show (['\n', '\n'] : Str) = nn from rfl, if_pos hocc, hsplit]
  simp only [List.map_cons, List.map_nil]
  have hlts : ∀ u ∈ (scenPara :: [nn ++ scenPara, nn ++ scenPara, nn ++ scenPara,
      nn ++ scenPara, nn ++ scenPara, nn ++ scenPara, nn ++ scenPara,
      nn ++ scenPara, nn ++ scenParaLast]), u.length < SECONDARY_CHUNK_SIZE := by
    intro u hu
    simp at hu
    rcases hu with rfl | rfl | rfl
    · rw [scenPara_length]; decide
    · rw [List.length_append, scenPara_length]; decide
    · rw [List.length_append, scenParaLast_length]; decide
  rw [splitLongs_all_good SECONDARY_CHUNK_SIZE SECONDARY_CHUNK_OVERLAP
    (splitLevelLine SECONDARY_CHUNK_SIZE SECONDARY_CHUNK_OVERLAP) _ [] hlts,
    List.nil_append]
  have h1 : SECONDARY_CHUNK_OVERLAP < scenPara.length := by
    rw [scenPara_length]; decide
  have h2 : ∀ v ∈ [nn ++ scenPara, nn ++ scenPara, nn ++ scenPara,
      nn ++ scenPara, nn ++ scenPara, nn ++ scenPara, nn ++ scenPara,
      nn ++ scenPara, nn ++ scenParaLast], SECONDARY_CHUNK_OVERLAP < v.length := by
    intro v hv
    simp at hv
    rcases hv with rfl | rfl
    · rw [List.length_append, scenPara_length]; decide
    · rw [List.length_append, scenParaLast_length]; decide
  have h3 : List.Chain'
      (fun a b : Str => SECONDARY_CHUNK_SIZE < a.length + b.length)
      (scenPara :: [nn ++ scenPara, nn ++ scenPara, nn ++ scenPara,
        nn ++ scenPara, nn ++ scenPara, nn ++ scenPara, nn ++ scenPara,
        nn ++ scenPara, nn ++ scenParaLast]) := by
    simp only [List.chain'_cons, List.chain'_singleton, List.length_append,
      scenPara_length, scenParaLast_length]
    refine ⟨?_, ?_, ?_, ?_, ?_, ?_, ?_, ?_, ?_, trivial⟩ <;> decide
  have h4 : ∀ v ∈ (scenPara :: [nn ++ scenPara, nn ++ scenPara, nn ++ scenPara,
      nn ++ scenPara, nn ++ scenPara, nn ++ scenPara, nn ++ scenPara,
      nn ++ scenPara, nn ++ scenParaLast]), strip v ≠ [] := by
    intro v hv
    simp at hv
    rcases hv with rfl | rfl | rfl
    · rw [scenPara_strip]; exact scenPara_ne_nil
    · rw [strip_nn_para]; exact scenPara_ne_nil
    · rw [strip_nn_paraLast]; exact scenParaLast_ne_nil
  rw [mergeUnits_chain SECONDARY_CHUNK_SIZE SECONDARY_CHUNK_OVERLAP scenPara _
    h1 h2 h3 h4]
  simp only [List.map_cons, List.map_nil, scenPara_strip, strip_nn_para,
    strip_nn_paraLast]
  rfl

theorem section5000_length : section5000.length = 5000 := by
  have h : section5000 = scenPara ++ nn ++ (scenPara ++ nn ++ (scenPara ++ nn ++
      (scenPara ++ nn ++ (scenPara ++ nn ++ (scenPara ++ nn ++ (scenPara ++ nn ++
      (scenPara ++ nn ++ (scenPara ++ nn ++ scenParaLast)))))))) := rfl
  rw [h]
  simp only [List.length_append, scenPara_length, scenParaLast_length]
  rfl

theorem secondary_section5000_length :
    (secondaryChunks ⟨none, none, none⟩ section5000).length = 10 := by
  rw [secondaryChunks, recSplit_section5000]
  simp [scenParas, List.enum_cons, List.enumFrom_cons, List.filterMap_cons,
    scenPara_not_orphan, scenParaLast_not_orphan]

theorem secondary_token_bound (meta : SegMeta) (content : Str) :
    ∀ c ∈ secondaryChunks meta content,
      c.token_count ≤ MAX_CHUNK_TOKENS + SECONDARY_CHUNK_OVERLAP / 4 := by
  intro c hc
  rw [secondaryChunks] at hc
  rcases List.mem_filterMap.mp hc with ⟨p, hp, hf⟩
  by_cases ho : isOrphanChunk p.2
  · rw [if_pos ho] at hf
    exact absurd hf (by simp)
  · rw [if_neg ho] at hf
    have hc2 : c.token_count = countTokens p.2 := by
      rw [← Option.some_inj.mp hf]
    have hmem : p.2 ∈ recursiveSplit SECONDARY_CHUNK_SIZE
        SECONDARY_CHUNK_OVERLAP content :=
      snd_mem_of_mem_enumFrom _ 0 p hp
    have hlen := (recursiveSplit_spec SECONDARY_CHUNK_SIZE
      SECONDARY_CHUNK_OVERLAP (by decide) content p.2 hmem).2
    have h800 : SECONDARY_CHUNK_SIZE = 800 := rfl
    have hM : MAX_CHUNK_TOKENS = 1000 := rfl
    have hO : SECONDARY_CHUNK_OVERLAP = 100 := rfl
    rw [hc2, countTokens, hM, hO]
    rw [h800] at hlen
    omega

theorem secondary_subChunk_increasing (meta : SegMeta) (content : Str) :
    List.Pairwise (fun a b : Nat => a < b)
      ((secondaryChunks meta content).filterMap
        (fun c => c.metadata.subChunk)) := by
  rw [secondaryChunks, List.filterMap_filterMap, List.pairwise_filterMap]
  have henum : (recursiveSplit SECONDARY_CHUNK_SIZE SECONDARY_CHUNK_OVERLAP
      content).enum = List.enumFrom 0 (recursiveSplit SECONDARY_CHUNK_SIZE
      SECONDARY_CHUNK_OVERLAP content) := rfl
  rw [henum]
  refine List.Pairwise.imp ?_ (pairwise_fst_lt_enumFrom _ 0)
  intro p q hpq b hb b' hb'
  by_cases ho : isOrphanChunk p.2
  · rw [if_pos ho] at hb
    simp at hb
  · rw [if_neg ho] at hb
    by_cases ho' : isOrphanChunk q.2
    · rw [if_pos ho'] at hb'
      simp at hb'
    · rw [if_neg ho'] at hb'
      simp at hb hb'
      omega

/-- Claim C6: for every header segment whose approximate token count exceeds
the configured maximum, every chunk retained from the secondary recursive
split has a token count within the maximum plus the overlap allowance, and
the one-based sub_chunk indices attached to the retained chunks are strictly
increasing; in particular the five-thousand-character scenario section with
max_tokens 1000 is oversized and yields at least two sub-chunks. -/
theorem c6_secondary_split_bound :
    (∀ (meta : SegMeta) (content : Str),
      MAX_CHUNK_TOKENS < countTokens content →
        (∀ c ∈ secondaryChunks meta content,
          c.token_count ≤ MAX_CHUNK_TOKENS + SECONDARY_CHUNK_OVERLAP / 4) ∧
        List.Pairwise (fun a b : Nat => a < b)
          ((secondaryChunks meta content).filterMap
            (fun c => c.metadata.subChunk))) ∧
    section5000.length = 5000 ∧
    MAX_CHUNK_TOKENS < countTokens section5000 ∧
    2 ≤ (secondaryChunks ⟨none, none, none⟩ section5000).length := by
  refine ⟨fun meta content _ => ⟨secondary_token_bound meta content,
    secondary_subChunk_increasing meta content⟩, section5000_length, ?_, ?_⟩
  · rw [countTokens, section5000_length]
    decide
  · rw [secondary_section5000_length]
    decide

/-- Witness for claim C6: the scenario section is oversized, and the
universal part applied to it bounds every retained chunk and orders the
sub_chunk indices. -/
theorem c6_secondary_split_bound_witness :
    MAX_CHUNK_TOKENS < countTokens section5000 ∧
    (∀ c ∈ secondaryChunks ⟨none, none, none⟩ section5000,
      c.token_count ≤ MAX_CHUNK_TOKENS + SECONDARY_CHUNK_OVERLAP / 4) ∧
    List.Pairwise (fun a b : Nat => a < b)
      ((secondaryChunks ⟨none, none, none⟩ section5000).filterMap
        (fun c => c.metadata.subChunk)) := by
  have hm : MAX_CHUNK_TOKENS < countTokens section5000 := by
    rw [countTokens, section5000_length]
    decide
  exact ⟨hm, (c6_secondary_split_bound.1 ⟨none, none, none⟩ section5000 hm).1,
    (c6_secondary_split_bound.1 ⟨none, none, none⟩ section5000 hm).2⟩

set_option maxRecDepth 40000 in
/-- Witness for claim C7: a concrete chunk returned for a concrete input,
whose token count equals its content length divided by four. -/
theorem c7_token_count_from_content_witness :
    (⟨S "alpha beta gamma delta epsilon", ⟨none, none, none⟩, 7⟩ : Chunk) ∈
      chunkDocument (S "alpha beta gamma delta epsilon") ∧
    (7 : Nat) = (S "alpha beta gamma delta epsilon").length / 4 :=
  ⟨by decide, c7_token_count_from_content (S "alpha beta gamma delta epsilon")
    ⟨S "alpha beta gamma delta epsilon", ⟨none, none, none⟩, 7⟩ (by decide)⟩

set_option maxRecDepth 40000 in
/-- Witness for the amended claim C5: the chunk produced by the orphan merge
on the counterexample input is pieced from subsequences of the cleaned
text. -/
theorem c5_content_pieced_from_clean_witness :
    (⟨S "# A\n\n# B\norange banana cherry dragonfruit elderberry fig grape honeydew kiwi lemon mango nectarine peach",
        ⟨some (S "B"), none, none⟩, 26⟩ : Chunk) ∈ chunkDocument c5Text ∧
    PiecedFrom (fun s => s <+ cleanText c5Text)
      (S "# A\n\n# B\norange banana cherry dragonfruit elderberry fig grape honeydew kiwi lemon mango nectarine peach") :=
  ⟨by decide, c5_content_pieced_from_clean c5Text
    ⟨S "# A\n\n# B\norange banana cherry dragonfruit elderberry fig grape honeydew kiwi lemon mango nectarine peach",
      ⟨some (S "B"), none, none⟩, 26⟩ (by decide)⟩
